import Mathlib

/-!
# slinq: LINQ-style functions over Go slices

A shallow embedding of `slinq.go`.  A Go slice `[]T` is a `List T`, a Go
`func(T) bool` is a function `T → Bool`, the zero value of `T` is `default`
of an `Inhabited T`, and a Go `error` is an `Option String` (`none` is `nil`).
A comparable type carries its operator `==` (`GoComparable`), which a map uses to
compare keys and which is not reflexive on a float64 NaN.
Every `for … range` loop of the source is a structural recursion over the list
that carries the loop's local variables as explicit arguments.  A function of
the source that can panic returns an `Except RuntimePanic _`.
-/

namespace Slinq

/-! ## Data model -/

/-- A Go `error` value: `none` is `nil`, `some msg` is `errors.New(msg)`. -/
abbrev GoError := Option String

/-- The run-time panics that an allocation or an index expression can raise. -/
inductive RuntimePanic where
  /-- Raised by `make([][]T, n)`: "makeslice: len out of range". -/
  | makesliceLen (n : Int)
  /-- Raised by an index expression `s[index]`: "index out of range". -/
  | indexOutOfRange (index : Int) (len : Nat)
  deriving DecidableEq, Repr

deriving instance DecidableEq for Except

/-- The outcome of a call that can panic: the panic, or the value returned.  (Inside
this namespace the name `Except` is taken by the function `Except` of `slinq.go`.) -/
abbrev PanicOr (α : Type) := Except RuntimePanic α

/-- What the Go specification leaves to the implementation and `Chunk` depends on.
A conversion `int(f)` of a floating-point `f` that `int` cannot represent "succeeds
but the result value is implementation-dependent"; `make([][]T, n)` panics with
"makeslice: len out of range" when `n` is negative or when the `24 * n` bytes of the
`n` slice headers exceed the allocation limit `maxAlloc` of the runtime. -/
structure Impl where
  /-- The value of `int(NaN)`. -/
  intOfNaN : Int
  /-- The value of `int(+Inf)`. -/
  intOfPosInf : Int
  /-- The largest `n` that `make([][]T, n)` accepts: `maxAlloc / 24`.  (Running out of
  physical memory below this limit is not modelled.) -/
  maxLen : Nat

/-- The gc compiler on amd64: CVTTSD2SQ gives the "integer indefinite" value
`-2^63` for NaN and for ±Inf; `maxAlloc` is `2^48` bytes. -/
def amd64 : Impl := ⟨-9223372036854775808, -9223372036854775808, 2 ^ 48 / 24⟩

/-- The gc compiler on arm64: FCVTZS gives `0` for NaN and saturates `+Inf` to
`2^63 - 1`; `maxAlloc` is `2^48` bytes. -/
def arm64 : Impl := ⟨0, 9223372036854775807, 2 ^ 48 / 24⟩

/-- The value of `math.Ceil(float64(n) / float64(size))` for a slice length `n`. -/
inductive CeilQuot where
  /-- The quotient `0.0 / 0.0`. -/
  | nan
  /-- The quotient `x / 0.0` for `x > 0`. -/
  | posInf
  /-- A finite quotient, rounded up to an integer. -/
  | finite (z : Int)
  deriving DecidableEq, Repr

/-- The expression `math.Ceil(float64(n) / float64(size))` of `Chunk`.  IEEE 754
division by zero gives NaN for `0/0` and `+Inf` for `n/0` with `n > 0`.  For
`size ≠ 0` the result is the ceiling of the quotient, `-⌊-n / size⌋`; the
float64 computation is exact here for every length below `2^53`. -/
def ceilQuot (n : Nat) (size : Int) : CeilQuot :=
  if size = 0 then (if n = 0 then .nan else .posInf)
  else .finite (-(Int.fdiv (-(n : Int)) size))

/-- The conversion `int(cap)` of `Chunk`. -/
def Impl.toInt (impl : Impl) : CeilQuot → Int
  | .nan => impl.intOfNaN
  | .posInf => impl.intOfPosInf
  | .finite z => z

/-- The allocation `make([][]T, n)`: `n` nil groups, or the panic
"makeslice: len out of range" when `n` is negative or above the allocation limit. -/
def makeGroups {T : Type} (impl : Impl) (n : Int) : Except RuntimePanic (List (List T)) :=
  if n < 0 ∨ (impl.maxLen : Int) < n then .error (.makesliceLen n)
  else .ok (List.replicate n.toNat [])

/-- A Go `map[K]V`: its entries, no two of which have keys that are `==`. -/
abbrev GoMap (K V : Type) := List (K × V)

/-- A comparable Go type: `eq` is the operator `==`, with which a Go map compares
keys.  Values that `==` identifies are one value of the model, so `==` holds only
between identical values (`eq_imp`); it can fail on a value compared with itself,
as it does on a float64 NaN. -/
class GoComparable (K : Type) where
  /-- The operator `==` of the type. -/
  eq : K → K → Bool
  /-- Two values that are `==` are the same value. -/
  eq_imp : ∀ a b, eq a b = true → a = b

/-- The comparable types on which `==` is reflexive (integers, strings, booleans):
`==` is identity there. -/
def GoComparable.ofDecidableEq (K : Type) [DecidableEq K] : GoComparable K where
  eq a b := decide (a = b)
  eq_imp _ _ h := of_decide_eq_true h

instance : GoComparable Nat := GoComparable.ofDecidableEq Nat

instance : GoComparable Int := GoComparable.ofDecidableEq Int

instance : GoComparable String := GoComparable.ofDecidableEq String

/-- A float64 used as a key: it is NaN or a number (an integer one is enough here). -/
inductive F64 where
  /-- The value NaN, the result of `math.NaN()`. -/
  | nan
  /-- The number `x`. -/
  | num (x : Int)
  deriving DecidableEq, Repr

/-- The operator `==` of float64: numbers compare by value, and NaN is `==` to
nothing, itself included. -/
def F64.eq : F64 → F64 → Bool
  | .num x, .num y => decide (x = y)
  | _, _ => false

instance : GoComparable F64 where
  eq := F64.eq
  eq_imp a b h := by
    cases a <;> cases b <;> simp [F64.eq] at h
    rw [h]

/-- The assignment `dict[k] = v`: overwrites the entry whose key is `==` to `k`, or
adds an entry when there is none. -/
def GoMap.set {K V : Type} [GoComparable K] : GoMap K V → K → V → GoMap K V
  | [], k, v => [(k, v)]
  | (k', v') :: m, k, v =>
    if GoComparable.eq k' k then (k, v) :: m else (k', v') :: GoMap.set m k v

/-- The lookup `v, exists := dict[k]`: `some v` when an entry has a key `==` to `k`,
else `none`. -/
def GoMap.get? {K V : Type} [GoComparable K] : GoMap K V → K → Option V
  | [], _ => none
  | (k', v') :: m, k => if GoComparable.eq k' k then some v' else GoMap.get? m k

/-! ## The functions of `slinq.go` -/

/-- The loop of `Aggregate`, with the local `result`. -/
def aggregateLoop {T : Type} (accumulator : T → T → T) : List T → T → T
  | [], result => result
  | v :: rest, result => aggregateLoop accumulator rest (accumulator result v)

/-- Aggregate applies an accumulator function to every element of the provided
slice, starting from the provided initial value. -/
def Aggregate {T : Type} (slice : List T) (initial : T) (accumulator : T → T → T) : T :=
  aggregateLoop accumulator slice initial

/-- The loop of `All`: `false` at the first element that fails the condition. -/
def allLoop {T : Type} (condition : T → Bool) : List T → Bool
  | [] => true
  | v :: rest => if !condition v then false else allLoop condition rest

/-- All returns true when all the elements in the provided slice satisfy the
provided condition. -/
def All {T : Type} (slice : List T) (condition : T → Bool) : Bool :=
  if slice.length = 0 then false else allLoop condition slice

/-- The loop of `Any`: `true` at the first element that satisfies the condition. -/
def anyLoop {T : Type} (condition : T → Bool) : List T → Bool
  | [] => false
  | v :: rest => if condition v then true else anyLoop condition rest

/-- Any returns true when at least one element in the provided slice satisfies
the provided condition. -/
def Any {T : Type} (slice : List T) (condition : T → Bool) : Bool :=
  if slice.length = 0 then false else anyLoop condition slice

/-- The loop of `Chunk` from index `i` on: each element is appended to the group
at index `i / size` (Go's truncated division), which must exist. -/
def chunkLoop {T : Type} (size : Int) :
    Nat → List T → List (List T) → Except RuntimePanic (List (List T))
  | _, [], result => .ok result
  | i, v :: rest, result =>
    let chunkIndex := Int.tdiv (i : Int) size
    if chunkIndex < 0 ∨ (result.length : Int) ≤ chunkIndex then
      .error (.indexOutOfRange chunkIndex result.length)
    else
      chunkLoop size (i + 1) rest (List.modify (fun g => g ++ [v]) chunkIndex.toNat result)

/-- Chunk returns a slice of slices of the provided size that contain the
elements of the provided slice. -/
def Chunk {T : Type} (impl : Impl) (slice : List T) (size : Int) :
    Except RuntimePanic (List (List T) × GoError) :=
  let cap := ceilQuot slice.length size
  match makeGroups impl (impl.toInt cap) with
  | .error p => .error p
  | .ok result =>
    if size = 0 then .ok (result, some "size cannot be zero")
    else
      match chunkLoop size 0 slice result with
      | .error p => .error p
      | .ok result => .ok (result, none)

/-- The loop of `Count`, with the counter `i`. -/
def countLoop {T : Type} (condition : T → Bool) : List T → Nat → Nat
  | [], i => i
  | v :: rest, i =>
    if condition v then countLoop condition rest (i + 1) else countLoop condition rest i

/-- Count returns the count of elements in the provided slice that satisfy the
provided condition. -/
def Count {T : Type} (slice : List T) (condition : T → Bool) : Nat :=
  countLoop condition slice 0

/-- The first loop of `Distinct`, `Except` and `Intersect`: `dict[v] = i` for every
element. -/
def indexLoop {T : Type} [GoComparable T] : List T → Nat → GoMap T Nat → GoMap T Nat
  | [], _, dict => dict
  | v :: rest, i, dict => indexLoop rest (i + 1) (GoMap.set dict v i)

/-- The second loop of `Distinct`: appends the key of every entry visited. -/
def keysLoop {T : Type} : List (T × Nat) → List T → List T
  | [], result => result
  | (k, _) :: rest, result => keysLoop rest (result ++ [k])

/-- Distinct returns removes duplicate values from the provided slice.  The order
in which `range dict` visits the entries is the parameter `order`. -/
def Distinct {T : Type} [GoComparable T] (order : GoMap T Nat → List (T × Nat))
    (slice : List T) : List T :=
  let dict := indexLoop slice 0 []
  keysLoop (order dict) []

/-- The loop of `First`: the first element that satisfies the condition. -/
def firstLoop {T : Type} (condition : T → Bool) : List T → Option T
  | [] => none
  | v :: rest => if condition v then some v else firstLoop condition rest

/-- First returns the first element of the provided slice that satisfies the
provided condition. -/
def First {T : Type} [Inhabited T] (slice : List T) (condition : T → Bool) : T × GoError :=
  if h : slice.length = 0 then (default, some "slice is empty")
  else
    match firstLoop condition slice with
    | some v => (v, none)
    | none =>
      (slice.get ⟨0, Nat.pos_of_ne_zero h⟩,
        some "no element in the slice satisfies the condition")

/-- The loop of `Single`, with the locals `found` and `result`. -/
def singleLoop {T : Type} [Inhabited T] (condition : T → Bool) :
    List T → Bool → T → T × GoError
  | [], _, result => (result, none)
  | v :: rest, found, result =>
    if condition v then
      if found then (default, some "more than one element satisfy the condition")
      else singleLoop condition rest true v
    else singleLoop condition rest found result

/-- Single returns a single, specific element of the provided slice, returns an
error if there are not exactly one element that satisfy the provided condition. -/
def Single {T : Type} [Inhabited T] (slice : List T) (condition : T → Bool) : T × GoError :=
  if slice.length = 0 then (default, some "slice is empty")
  else singleLoop condition slice false default

/-- The loop of `Where`, with the slice `result` built so far. -/
def whereLoop {T : Type} (condition : T → Bool) : List T → List T → List T
  | [], result => result
  | v :: rest, result =>
    if condition v then whereLoop condition rest (result ++ [v])
    else whereLoop condition rest result

/-- Where returns a slice that contains all the elements of the provided slice
that satisfy the provided condition. -/
def Where {T : Type} (slice : List T) (condition : T → Bool) : List T :=
  whereLoop condition slice []

/-- The second loop of `Except`: keeps the elements that have no entry in `dict`. -/
def exceptLoop {T : Type} [GoComparable T] (dict : GoMap T Nat) : List T → List T → List T
  | [], result => result
  | v :: rest, result =>
    if !(GoMap.get? dict v).isSome then exceptLoop dict rest (result ++ [v])
    else exceptLoop dict rest result

/-- Except returns the elements of the first provided slice that don't appear in
the second provided slice. -/
def Except {T : Type} [GoComparable T] (first second : List T) : List T :=
  let dict := indexLoop second 0 []
  exceptLoop dict first []

/-- The second loop of `Intersect`: keeps the elements that have an entry in `dict`. -/
def intersectLoop {T : Type} [GoComparable T] (dict : GoMap T Nat) : List T → List T → List T
  | [], result => result
  | v :: rest, result =>
    if (GoMap.get? dict v).isSome then intersectLoop dict rest (result ++ [v])
    else intersectLoop dict rest result

/-- Intersect returns the elements that appear in both of the provided slices. -/
def Intersect {T : Type} [GoComparable T] (first second : List T) : List T :=
  let dict := indexLoop first 0 []
  intersectLoop dict second []

/-- The loop of `Reverse`, `for i := len(slice) - 1; i >= 0; i--`, as a recursion on
`i + 1`: the body reads `slice[i]`, which panics when `i` is out of range. -/
def reverseLoop {T : Type} (slice : List T) : Nat → List T → PanicOr (List T)
  | 0, result => .ok result
  | i + 1, result =>
    match slice[i]? with
    | none => .error (.indexOutOfRange i slice.length)
    | some v => reverseLoop slice i (result ++ [v])

/-- Reverse returns a slice with the elements of the provided slice in reversed
order. -/
def Reverse {T : Type} (slice : List T) : PanicOr (List T) :=
  reverseLoop slice slice.length []

/-- The loop of `Select`, with the slice `result` built so far. -/
def selectLoop {S R : Type} (selector : S → R) : List S → List R → List R
  | [], result => result
  | v :: rest, result => selectLoop selector rest (result ++ [selector v])

/-- Select returns a slice of elements of the provided slice that have been
modified by the provided selector. -/
def Select {S R : Type} (slice : List S) (selector : S → R) : List R :=
  selectLoop selector slice []

/-- The inner loop of `SelectMany`: appends every element of one sub-slice. -/
def innerLoop {R : Type} : List R → List R → List R
  | [], result => result
  | inner :: rest, result => innerLoop rest (result ++ [inner])

/-- The outer loop of `SelectMany`, with the index `i` of the current element. -/
def selectManyLoop {S R : Type} (selector : S → Int → List R) :
    List S → Nat → List R → List R
  | [], _, result => result
  | outer :: rest, i, result =>
    selectManyLoop selector rest (i + 1) (innerLoop (selector outer (i : Int)) result)

/-- SelectMany returns a slice of elements of the provided slice that have been
modified by the provided selector and flattened into a single slice. -/
def SelectMany {S R : Type} (slice : List S) (selector : S → Int → List R) : List R :=
  selectManyLoop selector slice 0 []

/-- The loop of `ToMap`: `dict[keySelector(v)] = valueSelector(v)` for every element. -/
def toMapLoop {T K V : Type} [GoComparable K] (keySelector : T → K) (valueSelector : T → V) :
    List T → GoMap K V → GoMap K V
  | [], dict => dict
  | v :: rest, dict =>
    toMapLoop keySelector valueSelector rest (GoMap.set dict (keySelector v) (valueSelector v))

/-- ToMap returns a map that was created by applying the provided key- and
value-selector to the elements of the provided slice. -/
def ToMap {T K V : Type} [GoComparable K] (slice : List T) (keySelector : T → K)
    (valueSelector : T → V) : GoMap K V :=
  toMapLoop keySelector valueSelector slice []

/-- The loop of `ToSlice` over the entries in the order they are visited. -/
def toSliceLoop {K V R : Type} (selector : K → V → R) : List (K × V) → List R → List R
  | [], result => result
  | (key, value) :: rest, result => toSliceLoop selector rest (result ++ [selector key value])

/-- ToSlice returns a slice that was created by applying the provided selector to
the key-value pairs of the provided map.  The order in which `range dict` visits the
entries is the parameter `order`. -/
def ToSlice {K V R : Type} (order : GoMap K V → List (K × V)) (dict : GoMap K V)
    (selector : K → V → R) : List R :=
  toSliceLoop selector (order dict) []

/-- The loop of `Zip`, `for i := 0; i < shorterLength; i++`, as a recursion on the
number `shorterLength - i` of iterations left: the body reads `first[i]` and
`second[i]`, which panic when `i` is out of range. -/
def zipLoop {T1 T2 R : Type} (first : List T1) (second : List T2) (selector : T1 → T2 → R) :
    Nat → Nat → List R → PanicOr (List R)
  | 0, _, result => .ok result
  | left + 1, i, result =>
    match first[i]? with
    | none => .error (.indexOutOfRange i first.length)
    | some elementFirst =>
      match second[i]? with
      | none => .error (.indexOutOfRange i second.length)
      | some elementSecond =>
        zipLoop first second selector left (i + 1) (result ++ [selector elementFirst elementSecond])

/-- Zip returns a slice that was created by applying the provided selector to each
corresponding elements of both provided slices. -/
def Zip {T1 T2 R : Type} (first : List T1) (second : List T2) (selector : T1 → T2 → R) :
    PanicOr (List R) :=
  let shorterLength := if first.length < second.length then first.length else second.length
  zipLoop first second selector shorterLength 0 []

/-- The loop of `Repeat`, `for i := 0; i < count; i++`, with the counter `i` and the
slice `result` built so far; it stops because `count - i` decreases. -/
def repeatLoop {T : Type} (value : T) (count : Int) (i : Int) (result : List T) : List T :=
  if i < count then repeatLoop value count (i + 1) (result ++ [value]) else result
termination_by (count - i).toNat
decreasing_by omega

/-- Repeat generates a slice that contains one repeated value the provided number
of times. -/
def Repeat {T : Type} (value : T) (count : Int) : List T :=
  repeatLoop value count 0 []

/-! ## Definitions used in the proofs -/

/-- The first `c` consecutive runs of `s` elements of `l`: run `j` is
`l[j*s : min((j+1)*s, len(l))]`.  Used to state the invariant of the loop of `Chunk`. -/
def runs {T : Type} (s c : Nat) (l : List T) : List (List T) :=
  (List.range c).map (fun j => (l.drop (j * s)).take s)

/-! ## The loops in closed form -/

theorem allLoop_eq_all {T : Type} (condition : T → Bool) (l : List T) :
    allLoop condition l = l.all condition := by
  induction l with
  | nil => rfl
  | cons v rest ih => cases h : condition v <;> simp [allLoop, h, ih]

theorem anyLoop_eq_any {T : Type} (condition : T → Bool) (l : List T) :
    anyLoop condition l = l.any condition := by
  induction l with
  | nil => rfl
  | cons v rest ih => cases h : condition v <;> simp [anyLoop, h, ih]

theorem countLoop_eq {T : Type} (condition : T → Bool) (l : List T) (i : Nat) :
    countLoop condition l i = i + l.countP condition := by
  induction l generalizing i with
  | nil => simp [countLoop]
  | cons v rest ih =>
    cases h : condition v
    · simp [countLoop, h, ih, List.countP_cons]
    · simp [countLoop, h, ih, List.countP_cons]; omega

theorem whereLoop_eq {T : Type} (condition : T → Bool) (l result : List T) :
    whereLoop condition l result = result ++ l.filter condition := by
  induction l generalizing result with
  | nil => simp [whereLoop]
  | cons v rest ih => cases h : condition v <;> simp [whereLoop, h, ih]

theorem card_positions_eq_countP {T : Type} (pred : T → Bool) (l : List T) :
    (Finset.univ.filter (fun i : Fin l.length => pred (l.get i) = true)).card
      = l.countP pred := by
  induction l with
  | nil => simp
  | cons v rest ih =>
    rw [Finset.card_filter] at ih ⊢
    simp only [List.length_cons]
    rw [Fin.sum_univ_succ]
    have hsucc : ∀ i : Fin rest.length, (v :: rest).get i.succ = rest.get i := fun _ => rfl
    simp only [List.get_cons_zero, hsucc, List.countP_cons]
    rw [ih]
    exact Nat.add_comm _ _

/-! ## Chunk -/

theorem ceilDiv_bounds (n : Nat) (size : Int) (hsize : 0 < size) :
    (n : Int) ≤ -(Int.fdiv (-(n : Int)) size) * size ∧
      -(Int.fdiv (-(n : Int)) size) * size < n + size := by
  rw [Int.fdiv_eq_ediv _ hsize.le]
  have h1 := Int.ediv_mul_le (-(n : Int)) hsize.ne'
  have h2 := Int.lt_ediv_add_one_mul_self (-(n : Int)) hsize
  constructor <;> nlinarith

theorem ceilDiv_eq_ceil (n : Nat) (size : Int) (hsize : 0 < size) :
    -(Int.fdiv (-(n : Int)) size) = Int.ceil ((n : ℚ) / (size : ℚ)) := by
  obtain ⟨h1, h2⟩ := ceilDiv_bounds n size hsize
  have hq : (0 : ℚ) < (size : ℚ) := by exact_mod_cast hsize
  symm
  rw [Int.ceil_eq_iff]
  constructor
  · rw [lt_div_iff₀ hq]
    have : ((-(Int.fdiv (-(n : Int)) size) * size : Int) : ℚ) < ((n + size : Int) : ℚ) := by
      exact_mod_cast h2
    push_cast at this ⊢
    linarith
  · rw [div_le_iff₀ hq]
    have : ((n : Int) : ℚ) ≤ ((-(Int.fdiv (-(n : Int)) size) * size : Int) : ℚ) := by
      exact_mod_cast h1
    push_cast at this ⊢
    linarith

theorem runs_nil {T : Type} (s c : Nat) : runs s c ([] : List T) = List.replicate c [] := by
  apply List.ext_getElem?
  intro m
  by_cases hm : m < c
  · simp [runs, List.getElem?_range hm, List.getElem?_replicate, hm]
  · simp [runs, List.getElem?_replicate, hm, List.getElem?_eq_none]

theorem length_runs {T : Type} (s c : Nat) (l : List T) : (runs s c l).length = c := by
  simp [runs]

theorem getElem?_runs {T : Type} (s c : Nat) (l : List T) (m : Nat) :
    (runs s c l)[m]? = if m < c then some ((l.drop (m * s)).take s) else none := by
  by_cases hm : m < c
  · simp [runs, List.getElem?_range hm, hm]
  · simp [runs, hm, List.getElem?_eq_none]; omega

theorem modify_runs {T : Type} (s c : Nat) (hs : 0 < s) (pre : List T) (v : T) :
    List.modify (fun g => g ++ [v]) (pre.length / s) (runs s c pre) = runs s c (pre ++ [v]) := by
  have hdm := Nat.div_add_mod pre.length s
  have hmod := Nat.mod_lt pre.length hs
  apply List.ext_getElem?
  intro m
  rw [List.getElem?_modify, getElem?_runs, getElem?_runs]
  by_cases hm : m < c
  · simp only [hm, if_true, Option.map_eq_map, Option.map_some']
    congr 1
    rcases Nat.lt_trichotomy m (pre.length / s) with hlt | heq | hgt
    · have hle : m * s + s ≤ pre.length := by
        have : (m + 1) * s ≤ pre.length / s * s := Nat.mul_le_mul_right s hlt
        have := Nat.div_mul_le_self pre.length s
        nlinarith
      rw [if_neg (by omega), List.drop_append_of_le_length (by omega),
        List.take_append_of_le_length (by simp; omega)]
    · subst heq
      have hle : pre.length / s * s ≤ pre.length := Nat.div_mul_le_self _ _
      have hlen : (List.drop (pre.length / s * s) pre).length < s := by
        simp only [List.length_drop]
        have : s * (pre.length / s) = pre.length / s * s := Nat.mul_comm _ _
        omega
      rw [if_pos rfl, List.drop_append_of_le_length hle,
        List.take_of_length_le hlen.le,
        List.take_of_length_le (by simp only [List.length_append, List.length_singleton]; omega)]
    · have hge : pre.length + 1 ≤ m * s := by
        have : (pre.length / s + 1) * s ≤ m * s := Nat.mul_le_mul_right s hgt
        have : s * (pre.length / s) = pre.length / s * s := Nat.mul_comm _ _
        nlinarith
      rw [if_neg (by omega), List.drop_of_length_le (by omega),
        List.drop_of_length_le (by simp; omega)]
  · simp [hm]

theorem chunkLoop_runs {T : Type} (s c : Nat) (hs : 0 < s) (rest pre : List T)
    (hfit : pre.length + rest.length ≤ c * s) :
    chunkLoop (s : Int) pre.length rest (runs s c pre) = .ok (runs s c (pre ++ rest)) := by
  induction rest generalizing pre with
  | nil => simp [chunkLoop]
  | cons v rest ih =>
    have hk : pre.length / s < c := by
      rw [Nat.div_lt_iff_lt_mul hs]
      simp only [List.length_cons] at hfit
      omega
    have hidx : Int.tdiv (pre.length : Int) (s : Int) = ((pre.length / s : Nat) : Int) :=
      (Int.ofNat_tdiv _ _).symm
    have hguard : ¬ (((pre.length / s : Nat) : Int) < 0
        ∨ ((runs s c pre).length : Int) ≤ ((pre.length / s : Nat) : Int)) := by
      rw [length_runs]
      have hk1 : ((pre.length / s : Nat) : Int) < (c : Int) := by exact_mod_cast hk
      have hk0 : (0 : Int) ≤ ((pre.length / s : Nat) : Int) := Int.ofNat_nonneg _
      intro h
      rcases h with h | h
      · exact absurd hk0 (not_le.mpr h)
      · exact absurd hk1 (not_lt.mpr h)
    have hnext := ih (pre ++ [v]) (by simp only [List.length_cons] at hfit; simp; omega)
    simp only [List.length_append, List.length_singleton, List.append_assoc,
      List.singleton_append] at hnext
    simp only [chunkLoop, hidx, hguard, if_false, Int.toNat_ofNat, modify_runs s c hs pre v]
    exact hnext

theorem flatten_runs {T : Type} (s c : Nat) (l : List T) :
    (runs s c l).flatten = l.take (c * s) := by
  induction c with
  | zero => simp [runs]
  | succ c ih =>
    have : runs s (c + 1) l = runs s c l ++ [(l.drop (c * s)).take s] := by
      simp [runs, List.range_succ]
    rw [this, List.flatten_append, ih, Nat.succ_mul, List.take_add]
    simp

theorem take_min_length {T : Type} (a : Nat) (l : List T) :
    l.take (min a l.length) = l.take a := by
  rcases Nat.le_total a l.length with h | h
  · rw [Nat.min_eq_left h]
  · rw [Nat.min_eq_right h, List.take_of_length_le h, List.take_of_length_le (le_refl _)]

/-- C2: for every sequence shorter than `2^53` (where the float64
quotient is exact) and every `size > 0` such that the group count
`ceil(len(seq)/size)` does not exceed the largest length `make` accepts, `Chunk`
returns no error and exactly `ceil(len(seq)/size)` groups; group `j` is the run
`seq[j*size : min((j+1)*size, len(seq))]`, every group but the last has `size`
elements, the last has between 1 and `size`, and the groups concatenated in order
give back `seq` (so an empty `seq` gives no group). -/
theorem Chunk_pos_size_partitions {T : Type} (impl : Impl) (seq : List T) (size : Int)
    (hsize : 0 < size) (_hlen : seq.length < 2 ^ 53)
    (halloc : Int.ceil ((seq.length : ℚ) / (size : ℚ)) ≤ (impl.maxLen : Int)) :
    ∃ groups : List (List T),
      Chunk impl seq size = .ok (groups, none) ∧
      (groups.length : Int) = Int.ceil ((seq.length : ℚ) / (size : ℚ)) ∧
      (∀ j (hj : j < groups.length),
        groups[j]
          = (seq.take (min ((j + 1) * size.toNat) seq.length)).drop (j * size.toNat)) ∧
      (∀ j (hj : j < groups.length), j + 1 < groups.length →
        (groups[j].length : Int) = size) ∧
      (∀ j (hj : j < groups.length), j + 1 = groups.length →
        1 ≤ groups[j].length ∧ (groups[j].length : Int) ≤ size) ∧
      groups.flatten = seq ∧
      (seq = [] → groups = []) := by
  rw [← ceilDiv_eq_ceil seq.length size hsize] at halloc ⊢
  obtain ⟨hlo, hhi⟩ := ceilDiv_bounds seq.length size hsize
  have hne : size ≠ 0 := hsize.ne'
  have hc0 : 0 ≤ -(Int.fdiv (-(seq.length : Int)) size) := by nlinarith
  generalize hcz : -(Int.fdiv (-(seq.length : Int)) size) = cz at halloc hlo hhi hc0 ⊢
  lift size to Nat using hsize.le with s
  lift cz to Nat using hc0 with c
  have hs : 0 < s := by exact_mod_cast hsize
  have hlo' : seq.length ≤ c * s := by exact_mod_cast hlo
  have hhi' : c * s < seq.length + s := by exact_mod_cast hhi
  have hget : ∀ j (hj : j < (runs s c seq).length),
      (runs s c seq)[j] = (seq.drop (j * s)).take s := by
    intro j hj; simp [runs]
  refine ⟨runs s c seq, ?_, by rw [length_runs], ?_, ?_, ?_, ?_, ?_⟩
  · have hmk : makeGroups impl (c : Int)
        = (.ok (runs s c []) : PanicOr (List (List T))) := by
      simp only [makeGroups]
      rw [if_neg (by omega), Int.toNat_ofNat, runs_nil]
    have hloop := chunkLoop_runs s c hs seq [] (by simpa using hlo')
    simp only [List.length_nil, List.nil_append] at hloop
    simp only [Chunk, ceilQuot, if_neg hne, Impl.toInt, hcz, hmk, hloop]
  · intro j hj
    rw [hget j hj, Int.toNat_ofNat, take_min_length, List.take_drop]
    congr 2
    ring
  · intro j hj hlast
    rw [length_runs] at hlast
    have hfull : j * s + s ≤ seq.length := by
      have : (j + 2) * s ≤ c * s := Nat.mul_le_mul_right s hlast
      nlinarith
    rw [hget j hj, List.length_take, List.length_drop, Nat.min_eq_left (by omega)]
  · intro j hj hlast
    rw [length_runs] at hlast
    have hstart : j * s < seq.length := by
      have : (j + 1) * s = c * s := by rw [hlast]
      nlinarith
    rw [hget j hj, List.length_take, List.length_drop]
    refine ⟨by omega, ?_⟩
    exact_mod_cast Nat.min_le_left _ _
  · rw [flatten_runs, List.take_of_length_le hlo']
  · intro hnil
    subst hnil
    have : c = 0 := by
      simp only [List.length_nil] at hhi'
      rcases Nat.eq_zero_or_pos c with h | h
      · exact h
      · have := Nat.mul_le_mul_right s h
        omega
    subst this
    rfl

/-- Witness of `Chunk_pos_size_partitions`: seven elements in groups of three. -/
theorem Chunk_pos_size_partitions_witness :
    (0 : Int) < 3 ∧
      ([1, 2, 3, 4, 5, 6, 7] : List Nat).length < 2 ^ 53 ∧
      Int.ceil ((([1, 2, 3, 4, 5, 6, 7] : List Nat).length : ℚ) / ((3 : Int) : ℚ))
        ≤ (amd64.maxLen : Int) ∧
      ∃ groups : List (List Nat),
        Chunk amd64 [1, 2, 3, 4, 5, 6, 7] 3 = .ok (groups, none) ∧
        (groups.length : Int)
          = Int.ceil ((([1, 2, 3, 4, 5, 6, 7] : List Nat).length : ℚ) / ((3 : Int) : ℚ)) ∧
        groups.flatten = [1, 2, 3, 4, 5, 6, 7] :=
  have h1 : (0 : Int) < 3 := by decide
  have h2 : ([1, 2, 3, 4, 5, 6, 7] : List Nat).length < 2 ^ 53 := by decide
  have h3 : Int.ceil ((([1, 2, 3, 4, 5, 6, 7] : List Nat).length : ℚ) / ((3 : Int) : ℚ))
      ≤ (amd64.maxLen : Int) := by
    rw [← ceilDiv_eq_ceil _ _ h1]; decide
  ⟨h1, h2, h3,
    let ⟨groups, h⟩ := Chunk_pos_size_partitions amd64 [1, 2, 3, 4, 5, 6, 7] 3 h1 h2 h3
    ⟨groups, h.1, h.2.1, h.2.2.2.2.2.1⟩⟩

/-- With `size ≠ 0`, `Chunk` panics in `make` when the group count is above the
allocation limit. -/
theorem Chunk_count_above_limit {T : Type} (impl : Impl) (seq : List T) (size : Int) (n : Nat)
    (hlen : seq.length = n) (hsize : size ≠ 0)
    (hmax : (impl.maxLen : Int) < -(Int.fdiv (-(n : Int)) size)) :
    Chunk impl seq size = .error (.makesliceLen (-(Int.fdiv (-(n : Int)) size))) := by
  simp only [Chunk, ceilQuot, if_neg hsize, Impl.toInt, makeGroups, hlen,
    if_pos (Or.inr hmax : _ ∨ _)]

/-- The allocation limit is needed in C2: `Chunk(make([]struct{}, 1<<45), 1)` needs
`2^45` groups, more than `make` accepts on amd64, and panics instead of returning
them. -/
theorem Chunk_pos_size_counterexample :
    (0 : Int) < 1 ∧
      Chunk amd64 (List.replicate 35184372088832 ()) 1
        = .error (.makesliceLen 35184372088832) ∧
      ∀ r, Chunk amd64 (List.replicate 35184372088832 ()) 1 ≠ .ok r := by
  have h : Chunk amd64 (List.replicate 35184372088832 ()) 1
      = .error (.makesliceLen 35184372088832) :=
    Chunk_count_above_limit amd64 (List.replicate 35184372088832 ()) 1 35184372088832
      (List.length_replicate _ _) (by decide) (by decide)
  refine ⟨by decide, h, fun r hr => ?_⟩
  rw [h] at hr
  cases hr

/-- With `size == 0` and a non-empty slice the quotient is `+Inf`: `Chunk` panics in
`make` whenever `int(+Inf)` is negative. -/
theorem Chunk_zero_nonempty_panics {T : Type} (impl : Impl) (seq : List T) (hseq : seq ≠ [])
    (hconv : impl.intOfPosInf < 0) :
    Chunk impl seq 0 = .error (.makesliceLen impl.intOfPosInf) := by
  have hlen : seq.length ≠ 0 := fun h => hseq (List.length_eq_zero.mp h)
  simp [Chunk, ceilQuot, hlen, Impl.toInt, makeGroups, hconv]

/-- With `size == 0` and an empty slice the quotient is NaN: `Chunk` panics in `make`
whenever `int(NaN)` is negative. -/
theorem Chunk_zero_empty_panics {T : Type} (impl : Impl) (hconv : impl.intOfNaN < 0) :
    Chunk impl ([] : List T) 0 = .error (.makesliceLen impl.intOfNaN) := by
  simp [Chunk, ceilQuot, Impl.toInt, makeGroups, hconv]

/-- What `Chunk(seq, 0)` does on any implementation: it panics in `make` when the
converted quotient is negative or above the allocation limit, and otherwise returns
the error together with the slice of nil groups that it allocated before the size
check. -/
theorem Chunk_zero_outcome {T : Type} (impl : Impl) (seq : List T) :
    Chunk impl seq 0 =
      if impl.toInt (ceilQuot seq.length 0) < 0
          ∨ (impl.maxLen : Int) < impl.toInt (ceilQuot seq.length 0) then
        .error (.makesliceLen (impl.toInt (ceilQuot seq.length 0)))
      else
        .ok (List.replicate (impl.toInt (ceilQuot seq.length 0)).toNat [],
          some "size cannot be zero") := by
  by_cases h : impl.toInt (ceilQuot seq.length 0) < 0
      ∨ (impl.maxLen : Int) < impl.toInt (ceilQuot seq.length 0)
  · simp only [Chunk, makeGroups, if_pos h]
  · simp only [Chunk, makeGroups, if_neg h, if_true]

/-- C1: `Chunk(seq, 0)` is meant to return the "size cannot be zero" error as an ordinary
value.  The code allocates `make([][]T, int(math.Ceil(len/0)))` before it checks the
size: on amd64 `Chunk([1], 0)` panics in `make`, and so does `Chunk(seq, 0)` for
every `seq`. -/
theorem Chunk_size_zero_panics :
    Chunk amd64 [1] 0 = .error (.makesliceLen (-9223372036854775808)) ∧
      ∀ seq : List Nat, Chunk amd64 seq 0 = .error (.makesliceLen (-9223372036854775808)) := by
  refine ⟨by decide, fun seq => ?_⟩
  cases seq with
  | nil => exact Chunk_zero_empty_panics amd64 (by decide)
  | cons v rest => exact Chunk_zero_nonempty_panics amd64 (v :: rest) (by simp) (by decide)

/-! ## First and Single -/

theorem firstLoop_eq_none {T : Type} (condition : T → Bool) (l : List T) :
    firstLoop condition l = none ↔ ∀ x ∈ l, condition x = false := by
  induction l with
  | nil => simp [firstLoop]
  | cons v rest ih => cases h : condition v <;> simp [firstLoop, h, ih]

theorem firstLoop_least_index {T : Type} (condition : T → Bool) (l : List T)
    (hex : ∃ x ∈ l, condition x = true) :
    ∃ i, ∃ hi : i < l.length, condition l[i] = true ∧
      (∀ j (hj : j < l.length), j < i → condition l[j] = false) ∧
      firstLoop condition l = some l[i] := by
  induction l with
  | nil => simp at hex
  | cons v rest ih =>
    cases h : condition v with
    | true =>
      exact ⟨0, by simp, by simpa using h, fun j _ hlt => absurd hlt (Nat.not_lt_zero j),
        by simp [firstLoop, h]⟩
    | false =>
      have hex' : ∃ x ∈ rest, condition x = true := by
        obtain ⟨x, hx, hcx⟩ := hex
        rcases List.mem_cons.mp hx with rfl | hx
        · rw [h] at hcx; cases hcx
        · exact ⟨x, hx, hcx⟩
      obtain ⟨i, hi, hci, hmin, hloop⟩ := ih hex'
      refine ⟨i + 1, by simpa using hi, by simpa using hci, ?_, by simpa [firstLoop, h] using hloop⟩
      intro j hj hlt
      cases j with
      | zero => simpa using h
      | succ j =>
        have := hmin j (by simpa using hj) (by omega)
        simpa using this

/-- C3: `First(seq, pred)` has three cases.  On the empty sequence it returns the zero
value with an error; if some element satisfies `pred` it returns, with no error, the
element at the least index where `pred` holds; on a non-empty sequence with no such
element it returns `seq[0]` with an error.  Hence the error is `nil` if and only if
some element of `seq` satisfies `pred`. -/
theorem First_three_cases {T : Type} [Inhabited T] (seq : List T) (pred : T → Bool) :
    First ([] : List T) pred = (default, some "slice is empty") ∧
      ((∃ x ∈ seq, pred x = true) →
        ∃ i, ∃ hi : i < seq.length, pred seq[i] = true ∧
          (∀ j (hj : j < seq.length), j < i → pred seq[j] = false) ∧
          First seq pred = (seq[i], none)) ∧
      (∀ hne : seq ≠ [], (∀ x ∈ seq, pred x = false) →
        First seq pred = (seq.get ⟨0, List.length_pos.mpr hne⟩,
          some "no element in the slice satisfies the condition")) ∧
      ((First seq pred).2 = none ↔ ∃ x ∈ seq, pred x = true) := by
  have hsome : (∃ x ∈ seq, pred x = true) →
      ∃ i, ∃ hi : i < seq.length, pred seq[i] = true ∧
        (∀ j (hj : j < seq.length), j < i → pred seq[j] = false) ∧
        First seq pred = (seq[i], none) := by
    intro hex
    obtain ⟨i, hi, hci, hmin, hloop⟩ := firstLoop_least_index pred seq hex
    have hlen : seq.length ≠ 0 := by omega
    exact ⟨i, hi, hci, hmin, by simp [First, hlen, hloop]⟩
  have hnone : ∀ hne : seq ≠ [], (∀ x ∈ seq, pred x = false) →
      First seq pred = (seq.get ⟨0, List.length_pos.mpr hne⟩,
        some "no element in the slice satisfies the condition") := by
    intro hne hall
    have hlen : seq.length ≠ 0 := fun h => hne (List.length_eq_zero.mp h)
    have hloop := (firstLoop_eq_none pred seq).mpr hall
    simp [First, hlen, hloop]
  refine ⟨by simp [First], hsome, hnone, ?_⟩
  constructor
  · intro herr
    by_contra hno
    have hall : ∀ x ∈ seq, pred x = false := by
      intro x hx
      cases hpx : pred x with
      | false => rfl
      | true => exact absurd ⟨x, hx, hpx⟩ hno
    cases seq with
    | nil => simp [First] at herr
    | cons v rest =>
      rw [hnone (by simp) hall] at herr
      simp at herr
  · intro hex
    obtain ⟨i, hi, -, -, hfirst⟩ := hsome hex
    rw [hfirst]

theorem singleLoop_eq {T : Type} [Inhabited T] (condition : T → Bool) (l : List T)
    (found : Bool) (result : T) :
    singleLoop condition l found result =
      match found, l.filter condition with
      | _, [] => (result, none)
      | false, [x] => (x, none)
      | _, _ => (default, some "more than one element satisfy the condition") := by
  induction l generalizing found result with
  | nil => cases found <;> simp [singleLoop]
  | cons v rest ih =>
    cases h : condition v with
    | false => simp only [singleLoop, h, List.filter_cons, ih]; simp
    | true =>
      cases found with
      | true => simp [singleLoop, h, List.filter_cons]
      | false =>
        simp only [singleLoop, h, List.filter_cons, ih, if_true]
        cases List.filter condition rest <;> simp

/-- C4: `Single(seq, pred)` is decided by the number `n` of elements that satisfy
`pred`.  On the empty sequence it returns the zero value with an error; if `n == 1`
it returns the one matching element with no error; if `n >= 2` it returns the zero
value with an error; on a non-empty sequence with `n == 0` it returns the zero value
with no error. -/
theorem Single_by_match_count {T : Type} [Inhabited T] (seq : List T) (pred : T → Bool) :
    Single ([] : List T) pred = (default, some "slice is empty") ∧
      (seq.countP pred = 1 →
        ∃ x, x ∈ seq ∧ pred x = true ∧ seq.filter pred = [x] ∧ Single seq pred = (x, none)) ∧
      (2 ≤ seq.countP pred →
        Single seq pred = (default, some "more than one element satisfy the condition")) ∧
      (seq ≠ [] → seq.countP pred = 0 → Single seq pred = (default, none)) := by
  have hS : seq ≠ [] → Single seq pred = singleLoop pred seq false default := by
    intro hne
    have hlen : seq.length ≠ 0 := fun h => hne (List.length_eq_zero.mp h)
    simp [Single, hlen]
  refine ⟨by simp [Single], ?_, ?_, ?_⟩
  · intro hn
    have hne : seq ≠ [] := by rintro rfl; simp at hn
    rw [List.countP_eq_length_filter] at hn
    obtain ⟨x, hx⟩ := List.length_eq_one.mp hn
    have hmem : x ∈ seq.filter pred := by rw [hx]; simp
    rw [List.mem_filter] at hmem
    refine ⟨x, hmem.1, hmem.2, hx, ?_⟩
    rw [hS hne, singleLoop_eq, hx]
  · intro hn
    have hne : seq ≠ [] := by rintro rfl; simp at hn
    rw [List.countP_eq_length_filter] at hn
    rw [hS hne, singleLoop_eq]
    match hf : seq.filter pred, hn with
    | x :: y :: rest, _ => rfl
  · intro hne hn
    rw [List.countP_eq_length_filter, List.length_eq_zero] at hn
    rw [hS hne, singleLoop_eq, hn]

/-- C5: `Single` is documented to return an error whenever the number of matching
elements is not exactly one.  On `[1, 2, 3]` with the condition `x > 5` no element
matches, and the code returns the zero value with a `nil` error. -/
theorem Single_zero_matches_returns_nil_error :
    List.countP (fun x : Nat => decide (5 < x)) [1, 2, 3] = 0 ∧
      Single [1, 2, 3] (fun x : Nat => decide (5 < x)) = (0, none) := by
  decide

/-! ## Distinct -/

theorem keysLoop_eq {T : Type} (entries : List (T × Nat)) (result : List T) :
    keysLoop entries result = result ++ entries.map Prod.fst := by
  induction entries generalizing result with
  | nil => simp [keysLoop]
  | cons e rest ih => obtain ⟨k, i⟩ := e; simp [keysLoop, ih]

theorem GoMap.keys_set {K V : Type} [GoComparable K] (m : GoMap K V) (k : K) (v : V) :
    (GoMap.set m k v).map Prod.fst
      = if (m.map Prod.fst).any (fun k' => GoComparable.eq k' k) then m.map Prod.fst
        else m.map Prod.fst ++ [k] := by
  induction m with
  | nil => simp [GoMap.set]
  | cons e rest ih =>
    obtain ⟨k', v'⟩ := e
    cases h : GoComparable.eq k' k with
    | true =>
      have hk : k' = k := GoComparable.eq_imp k' k h
      subst hk
      simp [GoMap.set, h]
    | false =>
      have hset : GoMap.set ((k', v') :: rest) k v = (k', v') :: GoMap.set rest k v := by
        simp [GoMap.set, h]
      rw [hset]
      simp only [List.map_cons, ih, List.any_cons, h, Bool.false_or]
      split <;> simp

theorem GoMap.mem_keys_set {K V : Type} [GoComparable K] (m : GoMap K V) (k : K) (v : V)
    (x : K) : x ∈ (GoMap.set m k v).map Prod.fst ↔ x = k ∨ x ∈ m.map Prod.fst := by
  rw [GoMap.keys_set]
  split
  · rename_i hk
    obtain ⟨k', hk', heq⟩ := List.any_eq_true.mp hk
    have hkk : k' = k := GoComparable.eq_imp k' k heq
    subst hkk
    constructor
    · exact Or.inr
    · rintro (rfl | h)
      · exact hk'
      · exact h
  · simp [or_comm]

theorem GoMap.nodup_keys_set {K V : Type} [GoComparable K] (m : GoMap K V) (k : K) (v : V)
    (hk : GoComparable.eq k k = true) (hm : (m.map Prod.fst).Nodup) :
    ((GoMap.set m k v).map Prod.fst).Nodup := by
  rw [GoMap.keys_set]
  split
  · exact hm
  · rename_i hany
    have hnot : k ∉ m.map Prod.fst := fun hin => hany (List.any_eq_true.mpr ⟨k, hin, hk⟩)
    exact List.Nodup.append hm (List.nodup_singleton k) (by simpa using hnot)

theorem indexLoop_mem_keys {T : Type} [GoComparable T] (l : List T) (i : Nat)
    (dict : GoMap T Nat) (x : T) :
    x ∈ (indexLoop l i dict).map Prod.fst ↔ x ∈ dict.map Prod.fst ∨ x ∈ l := by
  induction l generalizing i dict with
  | nil => simp [indexLoop]
  | cons v rest ih =>
    rw [indexLoop, ih, GoMap.mem_keys_set, List.mem_cons]
    tauto

theorem indexLoop_nodup_keys {T : Type} [GoComparable T] (l : List T) (i : Nat)
    (dict : GoMap T Nat) (hl : ∀ x ∈ l, GoComparable.eq x x = true)
    (hdict : (dict.map Prod.fst).Nodup) :
    ((indexLoop l i dict).map Prod.fst).Nodup := by
  induction l generalizing i dict with
  | nil => simpa [indexLoop] using hdict
  | cons v rest ih =>
    rw [indexLoop]
    exact ih (i + 1) _ (fun x hx => hl x (List.mem_cons_of_mem _ hx))
      (GoMap.nodup_keys_set dict v i (hl v (List.mem_cons_self _ _)) hdict)

theorem Distinct_perm_keys {T : Type} [GoComparable T]
    (order : GoMap T Nat → List (T × Nat)) (horder : ∀ m, (order m).Perm m)
    (seq : List T) : (Distinct order seq).Perm ((indexLoop seq 0 []).map Prod.fst) := by
  simp only [Distinct, keysLoop_eq, List.nil_append]
  exact (horder _).map Prod.fst

/-- Whatever its elements are, `Distinct(seq)` contains a value if and only if `seq`
contains it. -/
theorem Distinct_mem_iff {T : Type} [GoComparable T]
    (order : GoMap T Nat → List (T × Nat)) (horder : ∀ m, (order m).Perm m)
    (seq : List T) (x : T) : x ∈ Distinct order seq ↔ x ∈ seq := by
  rw [(Distinct_perm_keys order horder seq).mem_iff, indexLoop_mem_keys]
  simp

/-- C10: for every sequence of comparable elements each of which is `==` to itself
(no NaN), whatever order the map is iterated in, `Distinct(seq)` contains no
value twice and contains a value if and only if `seq` contains it; hence its length
is the number of distinct values of `seq`. -/
theorem Distinct_nodup_same_values {T : Type} [DecidableEq T] [GoComparable T]
    (order : GoMap T Nat → List (T × Nat)) (horder : ∀ m, (order m).Perm m)
    (seq : List T) (hseq : ∀ x ∈ seq, GoComparable.eq x x = true) :
    (Distinct order seq).Nodup ∧
      (∀ x, x ∈ Distinct order seq ↔ x ∈ seq) ∧
      (Distinct order seq).length = seq.toFinset.card := by
  have hnd := indexLoop_nodup_keys seq 0 [] hseq (by simp)
  have h1 : (Distinct order seq).Nodup :=
    (Distinct_perm_keys order horder seq).nodup_iff.mpr hnd
  have h2 : ∀ x, x ∈ Distinct order seq ↔ x ∈ seq := Distinct_mem_iff order horder seq
  refine ⟨h1, h2, ?_⟩
  rw [← List.toFinset_card_of_nodup h1]
  congr 1
  ext x
  simp [h2]

/-- Witness of `Distinct_nodup_same_values`: the map iterated in reverse insertion
order, on the input of the test suite. -/
theorem Distinct_nodup_same_values_witness :
    (∀ m : GoMap Nat Nat, (List.reverse m).Perm m) ∧
      (∀ x ∈ ([1, 2, 3, 3, 4, 4, 4, 5, 6, 6] : List Nat), GoComparable.eq x x = true) ∧
      (Distinct List.reverse [1, 2, 3, 3, 4, 4, 4, 5, 6, 6]).Nodup ∧
      (∀ x, x ∈ Distinct List.reverse [1, 2, 3, 3, 4, 4, 4, 5, 6, 6]
        ↔ x ∈ [1, 2, 3, 3, 4, 4, 4, 5, 6, 6]) ∧
      (Distinct List.reverse [1, 2, 3, 3, 4, 4, 4, 5, 6, 6]).length
        = ([1, 2, 3, 3, 4, 4, 4, 5, 6, 6] : List Nat).toFinset.card :=
  ⟨fun m => List.reverse_perm m, by decide,
    Distinct_nodup_same_values List.reverse (fun m => List.reverse_perm m)
      [1, 2, 3, 3, 4, 4, 4, 5, 6, 6] (by decide)⟩

/-- The hypothesis on NaN is needed in C10: on `[NaN, NaN, 1, 1]` every NaN gets a
map entry of its own, so `Distinct` returns NaN twice and three elements for two
distinct values. -/
theorem Distinct_counterexample_nan :
    Distinct id [F64.nan, F64.nan, F64.num 1, F64.num 1] = [F64.nan, F64.nan, F64.num 1] ∧
      ¬ (Distinct id [F64.nan, F64.nan, F64.num 1, F64.num 1]).Nodup ∧
      (Distinct id [F64.nan, F64.nan, F64.num 1, F64.num 1]).length
        ≠ ([F64.nan, F64.nan, F64.num 1, F64.num 1] : List F64).toFinset.card := by
  decide

/-! ## Quantifiers, counting and filtering -/

/-- C6: `All(seq, pred)` is false when `seq` is empty, and for a non-empty `seq` it is
true if and only if every element of `seq` satisfies `pred`. -/
theorem All_false_on_empty_else_iff_forall {T : Type} (seq : List T) (pred : T → Bool) :
    All ([] : List T) pred = false ∧
      (seq ≠ [] → (All seq pred = true ↔ ∀ x ∈ seq, pred x = true)) := by
  refine ⟨rfl, fun hne => ?_⟩
  have hlen : seq.length ≠ 0 := fun h => hne (List.length_eq_zero.mp h)
  simp [All, hlen, allLoop_eq_all]

/-- C7: `Any(seq, pred)` is true if and only if at least one element of `seq`
satisfies `pred`; in particular it is false for the empty sequence. -/
theorem Any_iff_exists {T : Type} (seq : List T) (pred : T → Bool) :
    (Any seq pred = true ↔ ∃ x ∈ seq, pred x = true) ∧ Any ([] : List T) pred = false := by
  refine ⟨?_, rfl⟩
  cases seq with
  | nil => simp [Any]
  | cons v rest => simp [Any, anyLoop_eq_any]

/-- C8: `Count(seq, pred)` is the number of positions `i` with `pred(seq[i])` true; it
is 0 for the empty sequence, and `Count(seq, alwaysTrue)` is the length of `seq`. -/
theorem Count_eq_card_positions {T : Type} (seq : List T) (pred : T → Bool) :
    Count seq pred
        = (Finset.univ.filter (fun i : Fin seq.length => pred (seq.get i) = true)).card ∧
      Count ([] : List T) pred = 0 ∧
      Count seq (fun _ => true) = seq.length := by
  refine ⟨?_, rfl, ?_⟩
  · rw [card_positions_eq_countP]; simp [Count, countLoop_eq]
  · simp [Count, countLoop_eq]

/-- C9: `Where(seq, pred)` is the sub-sequence of `seq` made of the elements that
satisfy `pred`, in their original order and with duplicates kept; it is empty when
nothing matches or `seq` is empty, and `Where(seq, alwaysTrue)` is `seq`. -/
theorem Where_eq_filter {T : Type} (seq : List T) (pred : T → Bool) :
    Where seq pred = seq.filter pred ∧
      List.Sublist (Where seq pred) seq ∧
      (∀ x, x ∈ Where seq pred ↔ x ∈ seq ∧ pred x = true) ∧
      (∀ q : T → Bool, (Where seq pred).countP q = seq.countP (fun x => pred x && q x)) ∧
      ((∀ x ∈ seq, pred x = false) → Where seq pred = []) ∧
      Where ([] : List T) pred = [] ∧
      Where seq (fun _ => true) = seq := by
  have h : ∀ c : T → Bool, Where seq c = seq.filter c := fun c => by
    simp [Where, whereLoop_eq]
  refine ⟨h pred, ?_, ?_, ?_, ?_, rfl, ?_⟩
  · rw [h]; exact List.filter_sublist seq
  · intro x; rw [h]; simp
  · intro q; rw [h, List.countP_filter]
    congr 1; funext x; exact Bool.and_comm _ _
  · intro hno; rw [h]; simpa using hno
  · rw [h]; simp

/-! ## Except and Intersect -/

theorem GoMap.isSome_get?_eq_any {K V : Type} [GoComparable K] (m : GoMap K V) (k : K) :
    (GoMap.get? m k).isSome = (m.map Prod.fst).any (fun k' => GoComparable.eq k' k) := by
  induction m with
  | nil => simp [GoMap.get?]
  | cons e rest ih =>
    obtain ⟨k', v'⟩ := e
    cases h : GoComparable.eq k' k <;> simp [GoMap.get?, h, ih]

theorem any_eq_of_mem_iff {T : Type} [GoComparable T] (l₁ l₂ : List T) (x : T)
    (h : ∀ y, y ∈ l₁ ↔ y ∈ l₂) :
    l₁.any (fun w => GoComparable.eq w x) = l₂.any (fun w => GoComparable.eq w x) := by
  rw [Bool.eq_iff_iff, List.any_eq_true, List.any_eq_true]
  constructor
  · rintro ⟨w, hw, he⟩
    exact ⟨w, (h w).mp hw, he⟩
  · rintro ⟨w, hw, he⟩
    exact ⟨w, (h w).mpr hw, he⟩

theorem isSome_get?_indexLoop {T : Type} [GoComparable T] (l : List T) (x : T) :
    (GoMap.get? (indexLoop l 0 []) x).isSome = l.any (fun w => GoComparable.eq w x) := by
  rw [GoMap.isSome_get?_eq_any]
  exact any_eq_of_mem_iff _ _ x (fun y => by rw [indexLoop_mem_keys]; simp)

/-- An element is `==` to some element of `l` exactly when it occurs in `l` and is
`==` to itself. -/
theorem any_eq_eq_mem_and_self {T : Type} [DecidableEq T] [GoComparable T] (l : List T)
    (x : T) :
    l.any (fun w => GoComparable.eq w x) = (decide (x ∈ l) && GoComparable.eq x x) := by
  rw [Bool.eq_iff_iff, List.any_eq_true, Bool.and_eq_true, decide_eq_true_iff]
  constructor
  · rintro ⟨w, hw, he⟩
    have hwx : w = x := GoComparable.eq_imp w x he
    subst hwx
    exact ⟨hw, he⟩
  · rintro ⟨hx, he⟩
    exact ⟨x, hx, he⟩

theorem filter_any_eq_of_self_eq {T : Type} [DecidableEq T] [GoComparable T]
    (l other : List T) (hl : ∀ x ∈ l, GoComparable.eq x x = true) :
    l.filter (fun v => other.any (fun w => GoComparable.eq w v))
      = l.filter (fun v => decide (v ∈ other)) := by
  apply List.filter_congr
  intro x hx
  rw [any_eq_eq_mem_and_self, hl x hx, Bool.and_true]

theorem filter_not_any_eq_of_self_eq {T : Type} [DecidableEq T] [GoComparable T]
    (l other : List T) (hl : ∀ x ∈ l, GoComparable.eq x x = true) :
    l.filter (fun v => !other.any (fun w => GoComparable.eq w v))
      = l.filter (fun v => !decide (v ∈ other)) := by
  apply List.filter_congr
  intro x hx
  rw [any_eq_eq_mem_and_self, hl x hx, Bool.and_true]

theorem exceptLoop_eq {T : Type} [GoComparable T] (dict : GoMap T Nat) (l result : List T) :
    exceptLoop dict l result = result ++ l.filter (fun v => !(GoMap.get? dict v).isSome) := by
  induction l generalizing result with
  | nil => simp [exceptLoop]
  | cons v rest ih =>
    rw [exceptLoop, List.filter_cons]
    cases h : (GoMap.get? dict v).isSome <;> simp [ih]

theorem intersectLoop_eq {T : Type} [GoComparable T] (dict : GoMap T Nat) (l result : List T) :
    intersectLoop dict l result = result ++ l.filter (fun v => (GoMap.get? dict v).isSome) := by
  induction l generalizing result with
  | nil => simp [intersectLoop]
  | cons v rest ih =>
    rw [intersectLoop, List.filter_cons]
    cases h : (GoMap.get? dict v).isSome <;> simp [ih]

theorem Except_eq {T : Type} [GoComparable T] (first second : List T) :
    Except first second
      = first.filter (fun v => !second.any (fun w => GoComparable.eq w v)) := by
  simp only [Except, exceptLoop_eq, List.nil_append, isSome_get?_indexLoop]

theorem Intersect_eq {T : Type} [GoComparable T] (first second : List T) :
    Intersect first second
      = second.filter (fun v => first.any (fun w => GoComparable.eq w v)) := by
  simp only [Intersect, intersectLoop_eq, List.nil_append, isSome_get?_indexLoop]

/-- C11: `Except(first, second)` is `first` filtered to the elements
that are `==` to no element of `second`; when every element of `first` is `==` to
itself (no NaN) these are the elements whose value does not occur in `second`.  The
order of `first` is kept and every occurrence in `first` is kept or dropped on its
own.  `Except(s, [])` is `s` for every `s`, and `Except(s, s)` is empty for every `s`
whose elements are all `==` to themselves. -/
theorem Except_filters_first {T : Type} [DecidableEq T] [GoComparable T]
    (first second : List T) :
    Except first second
        = first.filter (fun v => !second.any (fun w => GoComparable.eq w v)) ∧
      ((∀ x ∈ first, GoComparable.eq x x = true) →
        Except first second = first.filter (fun v => !decide (v ∈ second))) ∧
      List.Sublist (Except first second) first ∧
      (∀ x, (Except first second).count x
        = if second.any (fun w => GoComparable.eq w x) then 0 else first.count x) ∧
      ((∀ x ∈ first, GoComparable.eq x x = true) → Except first first = []) ∧
      Except first [] = first := by
  refine ⟨Except_eq first second, fun h => ?_, ?_, ?_, fun h => ?_, ?_⟩
  · rw [Except_eq, filter_not_any_eq_of_self_eq first second h]
  · rw [Except_eq]; exact List.filter_sublist first
  · intro x
    rw [Except_eq]
    cases hx : second.any (fun w => GoComparable.eq w x) with
    | true =>
      rw [if_pos rfl, List.count_eq_zero]
      simp [hx]
    | false =>
      rw [if_neg (by simp), List.count_filter (by simp [hx])]
  · rw [Except_eq, filter_not_any_eq_of_self_eq first first h]
    simp
  · rw [Except_eq]; simp

/-- The hypothesis on NaN is needed in C11: a NaN is never found in the map, so
`Except(s, s)` is not empty for `s = [NaN]`. -/
theorem Except_counterexample_nan :
    Except [F64.nan] [F64.nan] = [F64.nan] ∧ Except [F64.nan] [F64.nan] ≠ [] := by
  decide

/-- C12: `Intersect(first, second)` is `second` filtered to the elements
that are `==` to some element of `first`; when every element of `second` is `==` to
itself (no NaN) these are the elements whose value occurs in `first`.  Order and
multiplicity follow `second`, so `Intersect([1], [1,1])` has two elements and
`Intersect([1,1], [1])` has one. -/
theorem Intersect_filters_second {T : Type} [DecidableEq T] [GoComparable T]
    (first second : List T) :
    Intersect first second
        = second.filter (fun v => first.any (fun w => GoComparable.eq w v)) ∧
      ((∀ x ∈ second, GoComparable.eq x x = true) →
        Intersect first second = second.filter (fun v => decide (v ∈ first))) ∧
      List.Sublist (Intersect first second) second ∧
      (∀ x, (Intersect first second).count x
        = if first.any (fun w => GoComparable.eq w x) then second.count x else 0) ∧
      Intersect [1] [1, 1] = [1, 1] ∧
      Intersect [1, 1] [1] = [1] := by
  refine ⟨Intersect_eq first second, fun h => ?_, ?_, ?_, by decide, by decide⟩
  · rw [Intersect_eq, filter_any_eq_of_self_eq second first h]
  · rw [Intersect_eq]; exact List.filter_sublist second
  · intro x
    rw [Intersect_eq]
    cases hx : first.any (fun w => GoComparable.eq w x) with
    | true =>
      rw [if_pos rfl, List.count_filter (by simp [hx])]
    | false =>
      rw [if_neg (by simp), List.count_eq_zero]
      simp [hx]

/-- The hypothesis on NaN is needed in C12: the value NaN occurs in `first`, yet a
NaN of `second` is never found in the map, so `Intersect([NaN, 1], [NaN, 1])` is
`[1]` and not `second` filtered to the values that occur in `first`. -/
theorem Intersect_counterexample_nan :
    Intersect [F64.nan, F64.num 1] [F64.nan, F64.num 1] = [F64.num 1] ∧
      Intersect [F64.nan, F64.num 1] [F64.nan, F64.num 1]
        ≠ [F64.nan, F64.num 1].filter (fun v => decide (v ∈ [F64.nan, F64.num 1])) := by
  decide

/-! ## Zip and Reverse -/

theorem zipLoop_eq {T1 T2 R : Type} (first : List T1) (second : List T2) (selector : T1 → T2 → R)
    (left i : Nat) (result : List R)
    (h1 : i + left ≤ first.length) (h2 : i + left ≤ second.length) :
    zipLoop first second selector left i result
      = .ok (result ++ (List.zipWith selector (first.drop i) (second.drop i)).take left) := by
  induction left generalizing i result with
  | zero => simp [zipLoop]
  | succ left ih =>
    have hi1 : i < first.length := by omega
    have hi2 : i < second.length := by omega
    rw [zipLoop, List.getElem?_eq_getElem hi1, List.getElem?_eq_getElem hi2]
    simp only []
    rw [ih (i + 1) _ (by omega) (by omega), List.drop_eq_getElem_cons hi1,
      List.drop_eq_getElem_cons hi2]
    simp only [List.zipWith_cons_cons, List.take_succ_cons, List.append_assoc,
      List.singleton_append]

theorem Zip_eq_zipWith {T1 T2 R : Type} (first : List T1) (second : List T2)
    (selector : T1 → T2 → R) :
    Zip first second selector = .ok (List.zipWith selector first second) := by
  have hmin : (if first.length < second.length then first.length else second.length)
      = min first.length second.length := by
    split <;> omega
  simp only [Zip, hmin]
  rw [zipLoop_eq first second selector _ 0 [] (by omega) (by omega)]
  simp only [List.drop_zero, List.nil_append]
  rw [List.take_of_length_le (by simp)]

/-- C13: `Zip(first, second, selector)` returns, with no panic (no index out of
range) and with no error, a slice of length `min(len(first), len(second))` whose
`i`-th element is `selector(first[i], second[i])`; what the longer slice has beyond
that length is dropped. -/
theorem Zip_pairs_up_to_shorter {T1 T2 R : Type} (first : List T1) (second : List T2)
    (selector : T1 → T2 → R) :
    ∃ result : List R,
      Zip first second selector = .ok result ∧
      result.length = min first.length second.length ∧
      (∀ i (h1 : i < first.length) (h2 : i < second.length),
        result[i]? = some (selector first[i] second[i])) ∧
      (∀ i, min first.length second.length ≤ i → result[i]? = none) := by
  refine ⟨List.zipWith selector first second, Zip_eq_zipWith first second selector,
    List.length_zipWith _ _ _, ?_, ?_⟩
  · intro i h1 h2
    rw [List.getElem?_eq_getElem (by simp; omega), List.getElem_zipWith]
  · intro i hi
    rw [List.getElem?_eq_none]
    simpa using hi

theorem reverseLoop_eq {T : Type} (slice : List T) (n : Nat) (result : List T)
    (hn : n ≤ slice.length) :
    reverseLoop slice n result = .ok (result ++ (slice.take n).reverse) := by
  induction n generalizing result with
  | zero => simp [reverseLoop]
  | succ i ih =>
    have hi : i < slice.length := by omega
    rw [reverseLoop, List.getElem?_eq_getElem hi]
    simp only []
    rw [ih _ (by omega), List.take_succ, List.getElem?_eq_getElem hi]
    simp only [Option.toList_some, List.reverse_append, List.reverse_singleton,
      List.singleton_append, List.append_assoc]

theorem Reverse_eq_reverse {T : Type} (slice : List T) :
    Reverse slice = .ok slice.reverse := by
  rw [Reverse, reverseLoop_eq slice _ [] (le_refl _)]
  simp

/-- C16: `Reverse(Reverse(seq)) == seq` for every sequence: both calls return, and
the second returns `seq`. -/
theorem Reverse_Reverse {T : Type} (seq : List T) :
    ∃ r : List T, Reverse seq = .ok r ∧ Reverse r = .ok seq := by
  refine ⟨seq.reverse, Reverse_eq_reverse seq, ?_⟩
  rw [Reverse_eq_reverse, List.reverse_reverse]

/-- C17: `Reverse(seq)` has the length of `seq` and its `i`-th element is
`seq[len(seq)-1-i]`; on an empty or single-element `seq` the result is `seq`. -/
theorem Reverse_length_and_elements {T : Type} (seq : List T) :
    ∃ r : List T, Reverse seq = .ok r ∧
      r.length = seq.length ∧
      (∀ i (hi : i < seq.length), r[i]? = some seq[seq.length - 1 - i]) ∧
      (seq.length ≤ 1 → r = seq) := by
  refine ⟨seq.reverse, Reverse_eq_reverse seq, List.length_reverse seq, ?_, ?_⟩
  · intro i hi
    rw [List.getElem?_reverse hi, List.getElem?_eq_getElem]
  · intro h
    match seq, h with
    | [], _ => rfl
    | [x], _ => rfl

/-! ## Aggregate, Select and SelectMany -/

theorem aggregateLoop_eq_foldl {T : Type} (accumulator : T → T → T) (l : List T) (result : T) :
    aggregateLoop accumulator l result = l.foldl accumulator result := by
  induction l generalizing result with
  | nil => rfl
  | cons v rest ih => simp [aggregateLoop, ih]

/-- C18: `Aggregate(seq, initial, fn)` is the left fold
`fn(...fn(fn(initial, seq[0]), seq[1])..., seq[n-1])`, with the running result as the
first argument of `fn` and the element as the second; on the empty sequence it is
`initial`. -/
theorem Aggregate_is_left_fold {T : Type} (seq : List T) (initial : T) (fn : T → T → T) :
    Aggregate seq initial fn = seq.foldl fn initial ∧
      Aggregate [] initial fn = initial ∧
      (∀ x, Aggregate (seq ++ [x]) initial fn = fn (Aggregate seq initial fn) x) := by
  refine ⟨aggregateLoop_eq_foldl fn seq initial, rfl, fun x => ?_⟩
  simp [Aggregate, aggregateLoop_eq_foldl]

theorem selectLoop_eq {S R : Type} (selector : S → R) (l : List S) (result : List R) :
    selectLoop selector l result = result ++ l.map selector := by
  induction l generalizing result with
  | nil => simp [selectLoop]
  | cons v rest ih => simp [selectLoop, ih]

/-- C19: `Select(seq, f)` has the length of `seq` and its `i`-th element is
`f(seq[i])` for every valid `i`. -/
theorem Select_length_and_elements {S R : Type} (seq : List S) (f : S → R) :
    (Select seq f).length = seq.length ∧
      ∀ i (hi : i < seq.length), (Select seq f)[i]? = some (f seq[i]) := by
  have h : Select seq f = seq.map f := by simp [Select, selectLoop_eq]
  refine ⟨by rw [h, List.length_map], fun i hi => ?_⟩
  rw [h, List.getElem?_map, List.getElem?_eq_getElem hi]
  rfl

theorem innerLoop_eq {R : Type} (sub result : List R) : innerLoop sub result = result ++ sub := by
  induction sub generalizing result with
  | nil => simp [innerLoop]
  | cons inner rest ih => simp [innerLoop, ih]

theorem selectManyLoop_eq {S R : Type} (selector : S → Int → List R) (l : List S) (i : Nat)
    (result : List R) :
    selectManyLoop selector l i result
      = result ++ (l.mapIdx (fun j x => selector x ((j + i : Nat) : Int))).flatten := by
  induction l generalizing i result with
  | nil => simp [selectManyLoop]
  | cons outer rest ih =>
    rw [selectManyLoop, ih, innerLoop_eq, List.mapIdx_cons]
    simp only [List.flatten_cons, List.append_assoc, Nat.zero_add]
    congr 4
    funext j x
    congr 2
    omega

theorem SelectMany_eq {S R : Type} (seq : List S) (f : S → Int → List R) :
    SelectMany seq f = (seq.mapIdx (fun i x => f x (i : Int))).flatten := by
  rw [SelectMany, selectManyLoop_eq]
  simp

/-- C20: `SelectMany(seq, f)` is the concatenation
`f(seq[0], 0) ++ f(seq[1], 1) ++ ... ++ f(seq[n-1], n-1)`: the selector gets each
element with its own zero-based index, the sub-sequences come in outer order with
their elements in inner order, and the length is the sum of their lengths. -/
theorem SelectMany_concatenates {S R : Type} (seq : List S) (f : S → Int → List R) :
    SelectMany seq f = (seq.mapIdx (fun i x => f x (i : Int))).flatten ∧
      SelectMany seq f
        = (List.ofFn (fun i : Fin seq.length => f (seq.get i) (i.val : Int))).flatten ∧
      (SelectMany seq f).length
        = (List.ofFn (fun i : Fin seq.length => (f (seq.get i) (i.val : Int)).length)).sum ∧
      SelectMany [] f = [] ∧
      (∀ x, SelectMany (seq ++ [x]) f = SelectMany seq f ++ f x (seq.length : Int)) := by
  have hofFn : seq.mapIdx (fun i x => f x (i : Int))
      = List.ofFn (fun i : Fin seq.length => f (seq.get i) (i.val : Int)) := by
    apply List.ext_getElem?
    intro n
    rw [List.getElem?_mapIdx]
    by_cases hn : n < seq.length
    · rw [List.getElem?_eq_getElem hn, List.getElem?_eq_getElem (by simpa using hn)]
      simp
    · rw [List.getElem?_eq_none (by omega), List.getElem?_eq_none (by simp; omega)]
      rfl
  refine ⟨SelectMany_eq seq f, ?_, ?_, rfl, ?_⟩
  · rw [SelectMany_eq, hofFn]
  · rw [SelectMany_eq, hofFn, List.length_flatten, List.map_ofFn]
    rfl
  · intro x
    rw [SelectMany_eq, SelectMany_eq, List.mapIdx_append]
    simp

/-! ## ToMap and ToSlice -/

theorem GoMap.get?_set {K V : Type} [GoComparable K] (m : GoMap K V) (k : K) (v : V) (k' : K) :
    GoMap.get? (GoMap.set m k v) k'
      = if GoComparable.eq k k' then some v else GoMap.get? m k' := by
  induction m with
  | nil => simp [GoMap.set, GoMap.get?]
  | cons e rest ih =>
    obtain ⟨k₀, v₀⟩ := e
    cases h : GoComparable.eq k₀ k with
    | true =>
      have hk : k₀ = k := GoComparable.eq_imp k₀ k h
      subst hk
      cases h' : GoComparable.eq k₀ k' <;> simp [GoMap.set, GoMap.get?, h, h']
    | false =>
      have hset : GoMap.set ((k₀, v₀) :: rest) k v = (k₀, v₀) :: GoMap.set rest k v := by
        simp [GoMap.set, h]
      rw [hset]
      cases h' : GoComparable.eq k₀ k' with
      | true =>
        have hk : k₀ = k' := GoComparable.eq_imp k₀ k' h'
        subst hk
        cases hkk : GoComparable.eq k k₀ with
        | true =>
          have hk2 : k = k₀ := GoComparable.eq_imp k k₀ hkk
          subst hk2
          rw [h] at h'
          cases h'
        | false => simp [GoMap.get?, h']
      | false => simp [GoMap.get?, h', ih]

theorem GoMap.mem_of_get?_eq_some {K V : Type} [GoComparable K] (m : GoMap K V) (k : K)
    (v : V) (h : GoMap.get? m k = some v) : (k, v) ∈ m := by
  induction m with
  | nil => simp [GoMap.get?] at h
  | cons e rest ih =>
    obtain ⟨k₀, v₀⟩ := e
    cases h' : GoComparable.eq k₀ k with
    | true =>
      have hk : k₀ = k := GoComparable.eq_imp k₀ k h'
      subst hk
      simp only [GoMap.get?, h', if_true, Option.some.injEq] at h
      subst h
      exact List.mem_cons_self _ _
    | false =>
      simp only [GoMap.get?, h'] at h
      exact List.mem_cons_of_mem _ (ih h)

theorem GoMap.get?_eq_some_of_mem {K V : Type} [GoComparable K] (m : GoMap K V)
    (hm : (m.map Prod.fst).Nodup) (k : K) (v : V) (hk : GoComparable.eq k k = true)
    (h : (k, v) ∈ m) : GoMap.get? m k = some v := by
  induction m with
  | nil => simp at h
  | cons e rest ih =>
    obtain ⟨k₀, v₀⟩ := e
    simp only [List.map_cons, List.nodup_cons] at hm
    rcases List.mem_cons.mp h with heq | hin
    · cases heq
      simp [GoMap.get?, hk]
    · have hne : GoComparable.eq k₀ k = false := by
        cases h' : GoComparable.eq k₀ k with
        | false => rfl
        | true =>
          have hkk : k₀ = k := GoComparable.eq_imp k₀ k h'
          subst hkk
          exact absurd (List.mem_map.mpr ⟨(k₀, v), hin, rfl⟩) hm.1
      simp only [GoMap.get?, hne]
      exact ih hm.2 hin

theorem toMapLoop_append {T K V : Type} [GoComparable K] (ks : T → K) (vs : T → V)
    (l₁ l₂ : List T) (dict : GoMap K V) :
    toMapLoop ks vs (l₁ ++ l₂) dict = toMapLoop ks vs l₂ (toMapLoop ks vs l₁ dict) := by
  induction l₁ generalizing dict with
  | nil => rfl
  | cons v rest ih => simp [toMapLoop, ih]

theorem toMapLoop_get?_of_not_key {T K V : Type} [GoComparable K] (ks : T → K) (vs : T → V)
    (l : List T) (dict : GoMap K V) (k : K) (hk : ∀ x ∈ l, ks x ≠ k) :
    GoMap.get? (toMapLoop ks vs l dict) k = GoMap.get? dict k := by
  induction l generalizing dict with
  | nil => rfl
  | cons v rest ih =>
    have hne : GoComparable.eq (ks v) k = false := by
      cases h : GoComparable.eq (ks v) k with
      | false => rfl
      | true => exact absurd (GoComparable.eq_imp _ _ h) (hk v (List.mem_cons_self _ _))
    rw [toMapLoop, ih _ (fun x hx => hk x (List.mem_cons_of_mem _ hx)), GoMap.get?_set, hne]
    rfl

theorem toMapLoop_mem_keys {T K V : Type} [GoComparable K] (ks : T → K) (vs : T → V)
    (l : List T) (dict : GoMap K V) (k : K) :
    k ∈ (toMapLoop ks vs l dict).map Prod.fst
      ↔ k ∈ dict.map Prod.fst ∨ ∃ e ∈ l, ks e = k := by
  induction l generalizing dict with
  | nil => simp [toMapLoop]
  | cons v rest ih =>
    rw [toMapLoop, ih, GoMap.mem_keys_set]
    simp only [List.mem_cons, exists_eq_or_imp]
    constructor
    · rintro ((rfl | h) | h)
      · exact Or.inr (Or.inl rfl)
      · exact Or.inl h
      · exact Or.inr (Or.inr h)
    · rintro (h | h | h)
      · exact Or.inl (Or.inr h)
      · exact Or.inl (Or.inl h.symm)
      · exact Or.inr h

theorem toMapLoop_nodup_keys {T K V : Type} [GoComparable K] (ks : T → K) (vs : T → V)
    (l : List T) (dict : GoMap K V) (hl : ∀ e ∈ l, GoComparable.eq (ks e) (ks e) = true)
    (hdict : (dict.map Prod.fst).Nodup) :
    ((toMapLoop ks vs l dict).map Prod.fst).Nodup := by
  induction l generalizing dict with
  | nil => simpa [toMapLoop] using hdict
  | cons v rest ih =>
    rw [toMapLoop]
    exact ih _ (fun e he => hl e (List.mem_cons_of_mem _ he))
      (GoMap.nodup_keys_set dict (ks v) (vs v) (hl v (List.mem_cons_self _ _)) hdict)

theorem exists_last_of_exists {T : Type} (p : T → Prop) (l : List T) (h : ∃ x ∈ l, p x) :
    ∃ pre e post, l = pre ++ e :: post ∧ p e ∧ ∀ x ∈ post, ¬ p x := by
  induction l with
  | nil => simp at h
  | cons a rest ih =>
    by_cases hrest : ∃ x ∈ rest, p x
    · obtain ⟨pre, e, post, hl, hp, hpost⟩ := ih hrest
      exact ⟨a :: pre, e, post, by rw [hl]; rfl, hp, hpost⟩
    · obtain ⟨x, hx, hpx⟩ := h
      rcases List.mem_cons.mp hx with rfl | hx
      · exact ⟨[], x, rest, rfl, hpx, fun y hy hpy => hrest ⟨y, hy, hpy⟩⟩
      · exact absurd ⟨x, hx, hpx⟩ hrest

/-- C14: when every selected key is `==` to itself (no NaN key), the keys
of `ToMap(seq, keySelector, valueSelector)` are pairwise distinct and are exactly the
values `keySelector(e)` for `e` in `seq`; each key `k` is mapped to
`valueSelector(e)` for the last element `e` of `seq` with `keySelector(e) == k`.
A repeated key is not an error: the function is total. -/
theorem ToMap_last_write_wins {T K V : Type} [GoComparable K] (seq : List T)
    (keySelector : T → K) (valueSelector : T → V)
    (hkeys : ∀ e ∈ seq, GoComparable.eq (keySelector e) (keySelector e) = true) :
    ((ToMap seq keySelector valueSelector).map Prod.fst).Nodup ∧
      (∀ k, k ∈ (ToMap seq keySelector valueSelector).map Prod.fst
        ↔ ∃ e ∈ seq, keySelector e = k) ∧
      (∀ k v, GoMap.get? (ToMap seq keySelector valueSelector) k = some v ↔
        ∃ pre e post, seq = pre ++ e :: post ∧ keySelector e = k ∧
          (∀ x ∈ post, keySelector x ≠ k) ∧ valueSelector e = v) ∧
      (∀ k v, (k, v) ∈ ToMap seq keySelector valueSelector
        ↔ GoMap.get? (ToMap seq keySelector valueSelector) k = some v) := by
  have hnd := toMapLoop_nodup_keys keySelector valueSelector seq [] hkeys (by simp)
  have hmem : ∀ k, k ∈ (ToMap seq keySelector valueSelector).map Prod.fst
      ↔ ∃ e ∈ seq, keySelector e = k := by
    intro k
    rw [ToMap, toMapLoop_mem_keys]
    simp
  have hlast : ∀ pre e post, seq = pre ++ e :: post → (∀ x ∈ post, keySelector x ≠ keySelector e) →
      GoMap.get? (ToMap seq keySelector valueSelector) (keySelector e)
        = some (valueSelector e) := by
    intro pre e post hseq hpost
    have he : e ∈ seq := by rw [hseq]; simp
    rw [ToMap, hseq, toMapLoop_append, toMapLoop,
      toMapLoop_get?_of_not_key _ _ _ _ _ hpost, GoMap.get?_set, hkeys e he]
    rfl
  refine ⟨hnd, hmem, fun k v => ?_, fun k v => ?_⟩
  · constructor
    · intro hget
      have hk : k ∈ (ToMap seq keySelector valueSelector).map Prod.fst :=
        List.mem_map.mpr ⟨(k, v), GoMap.mem_of_get?_eq_some _ k v hget, rfl⟩
      obtain ⟨pre, e, post, hseq, hke, hpost⟩ :=
        exists_last_of_exists (fun x => keySelector x = k) seq ((hmem k).mp hk)
      subst hke
      have := hlast pre e post hseq hpost
      rw [hget] at this
      exact ⟨pre, e, post, hseq, rfl, hpost, (Option.some.inj this).symm⟩
    · rintro ⟨pre, e, post, hseq, rfl, hpost, rfl⟩
      exact hlast pre e post hseq hpost
  · constructor
    · intro hin
      have hk : k ∈ (ToMap seq keySelector valueSelector).map Prod.fst :=
        List.mem_map.mpr ⟨(k, v), hin, rfl⟩
      obtain ⟨e, he, hke⟩ := (hmem k).mp hk
      subst hke
      exact GoMap.get?_eq_some_of_mem _ hnd _ v (hkeys e he) hin
    · exact GoMap.mem_of_get?_eq_some _ k v

/-- Witness of `ToMap_last_write_wins`: three elements, the key 1 selected twice. -/
theorem ToMap_last_write_wins_witness :
    (∀ e ∈ [("one", 1), ("two", 2), ("uno", 1)],
        GoComparable.eq (Prod.snd e : Nat) (Prod.snd e) = true) ∧
      ((ToMap [("one", 1), ("two", 2), ("uno", 1)] Prod.snd Prod.fst).map Prod.fst).Nodup ∧
      GoMap.get? (ToMap [("one", 1), ("two", 2), ("uno", 1)] Prod.snd Prod.fst) 1
        = some "uno" :=
  have hkeys : ∀ e ∈ [("one", 1), ("two", 2), ("uno", 1)],
      GoComparable.eq (Prod.snd e : Nat) (Prod.snd e) = true := by decide
  have h := ToMap_last_write_wins [("one", 1), ("two", 2), ("uno", 1)] Prod.snd Prod.fst hkeys
  ⟨hkeys, h.1,
    (h.2.2.1 1 "uno").mpr ⟨[("one", 1), ("two", 2)], ("uno", 1), [], rfl, rfl, by simp, rfl⟩⟩

/-- The hypothesis on NaN is needed in C14: two elements with the key NaN give two
entries, the first of which keeps the value of the first element, and the key NaN
has no value under lookup. -/
theorem ToMap_counterexample_nan :
    ToMap [(F64.nan, "a"), (F64.nan, "b")] Prod.fst Prod.snd
        = [(F64.nan, "a"), (F64.nan, "b")] ∧
      ¬ ((ToMap [(F64.nan, "a"), (F64.nan, "b")] Prod.fst Prod.snd).map Prod.fst).Nodup ∧
      GoMap.get? (ToMap [(F64.nan, "a"), (F64.nan, "b")] Prod.fst Prod.snd) F64.nan
        = none := by
  decide

theorem toSliceLoop_eq {K V R : Type} (selector : K → V → R) (entries : List (K × V))
    (result : List R) :
    toSliceLoop selector entries result
      = result ++ entries.map (fun e => selector e.1 e.2) := by
  induction entries generalizing result with
  | nil => simp [toSliceLoop]
  | cons e rest ih => obtain ⟨k, v⟩ := e; simp [toSliceLoop, ih]

/-- C15: whatever order the map is iterated in, `ToSlice(m, f)` applies `f` to every
entry exactly once: its length is the number of entries of `m` and, as a multiset, it
is the collection of the `f(k, v)` for the entries `(k, v)` of `m`. -/
theorem ToSlice_each_entry_once {K V R : Type} (order : GoMap K V → List (K × V))
    (horder : ∀ m, (order m).Perm m) (m : GoMap K V) (f : K → V → R) :
    (ToSlice order m f).length = m.length ∧
      (↑(ToSlice order m f) : Multiset R)
        = Multiset.map (fun e => f e.1 e.2) (↑m : Multiset (K × V)) := by
  have h : ToSlice order m f = (order m).map (fun e => f e.1 e.2) := by
    simp [ToSlice, toSliceLoop_eq]
  refine ⟨by rw [h, List.length_map, (horder m).length_eq], ?_⟩
  rw [h, Multiset.map_coe, Multiset.coe_eq_coe]
  exact (horder m).map _

/-- Witness of `ToSlice_each_entry_once`: the map of the test suite iterated in
reverse insertion order. -/
theorem ToSlice_each_entry_once_witness :
    (∀ m : GoMap Nat String, (List.reverse m).Perm m) ∧
      (ToSlice List.reverse [(1, "one"), (2, "two"), (3, "three")]
          (fun (i : Nat) (n : String) => (n, i))).length
        = ([(1, "one"), (2, "two"), (3, "three")] : GoMap Nat String).length ∧
      (↑(ToSlice List.reverse [(1, "one"), (2, "two"), (3, "three")]
          (fun (i : Nat) (n : String) => (n, i))) : Multiset (String × Nat))
        = Multiset.map (fun e => (e.2, e.1))
            (↑([(1, "one"), (2, "two"), (3, "three")] : GoMap Nat String)
              : Multiset (Nat × String)) :=
  ⟨fun m => List.reverse_perm m,
    ToSlice_each_entry_once List.reverse (fun m => List.reverse_perm m)
      [(1, "one"), (2, "two"), (3, "three")] (fun i n => (n, i))⟩

/-! ## Repeat -/

theorem repeatLoop_eq {T : Type} (value : T) (count : Int) (n : Nat) (i : Int)
    (result : List T) (hn : (count - i).toNat = n) :
    repeatLoop value count i result = result ++ List.replicate n value := by
  induction n generalizing i result with
  | zero =>
    rw [repeatLoop, if_neg (by omega)]
    simp
  | succ n ih =>
    rw [repeatLoop, if_pos (by omega), ih (i + 1) _ (by omega)]
    simp [List.replicate_succ]

theorem Repeat_eq_replicate {T : Type} (value : T) (count : Int) :
    Repeat value count = List.replicate count.toNat value := by
  rw [Repeat, repeatLoop_eq value count count.toNat 0 [] (by simp)]
  simp

/-- C21: `Repeat(value, count)` has length `count` when `count > 0` and length 0 when
`count <= 0`, and every element of it equals `value`. -/
theorem Repeat_length_and_elements {T : Type} (value : T) (count : Int) :
    (0 < count → ((Repeat value count).length : Int) = count) ∧
      (count ≤ 0 → (Repeat value count).length = 0) ∧
      (∀ x ∈ Repeat value count, x = value) ∧
      (∀ i (hi : i < (Repeat value count).length), (Repeat value count)[i] = value) := by
  rw [Repeat_eq_replicate]
  refine ⟨fun h => ?_, fun h => ?_, fun x hx => (List.mem_replicate.mp hx).2, fun i hi => ?_⟩
  · rw [List.length_replicate]; omega
  · rw [List.length_replicate]; omega
  · simp

/-! ## Chunk with a negative size -/

theorem fdiv_neg_neg (n d : Nat) (hd : 0 < d) :
    Int.fdiv (-(n : Int)) (-(d : Int)) = ((n / d : Nat) : Int) := by
  cases n with
  | zero => simp
  | succ n =>
    cases d with
    | zero => omega
    | succ d => rfl

theorem ceilDiv_eq_ceil_of_neg (n : Nat) (size : Int) (hsize : size < 0) :
    -(Int.fdiv (-(n : Int)) size) = Int.ceil ((n : ℚ) / (size : ℚ)) := by
  obtain ⟨d, hd⟩ : ∃ d : Nat, size = -(d : Int) := ⟨size.natAbs, by omega⟩
  subst hd
  have hpos : 0 < d := by omega
  rw [fdiv_neg_neg n d hpos]
  push_cast
  rw [div_neg, Int.ceil_neg, neg_inj]
  have h := Rat.floor_intCast_div_natCast (n : Int) d
  push_cast at h
  rw [h]

/-- C22: for a non-empty sequence and `size < 0`, `Chunk` does not return: either the
group count `ceil(len(seq)/size)` is negative and `make` panics, or the count is 0
and storing the first element at group index 0 is out of range.  For the empty
sequence and `size < 0` it returns an empty partition and no error. -/
theorem Chunk_neg_size_panics {T : Type} (impl : Impl) (seq : List T) (size : Int)
    (hsize : size < 0) :
    (seq ≠ [] →
      (-size ≤ (seq.length : Int) ∧
          Int.ceil ((seq.length : ℚ) / (size : ℚ)) < 0 ∧
          Chunk impl seq size
            = .error (.makesliceLen (Int.ceil ((seq.length : ℚ) / (size : ℚ))))) ∨
        ((seq.length : Int) < -size ∧
          Int.ceil ((seq.length : ℚ) / (size : ℚ)) = 0 ∧
          Chunk impl seq size = .error (.indexOutOfRange 0 0))) ∧
      (seq ≠ [] → ∀ r, Chunk impl seq size ≠ .ok r) ∧
      Chunk impl ([] : List T) size = .ok ([], none) := by
  have hne : size ≠ 0 := hsize.ne
  have hmain : seq ≠ [] →
      (-size ≤ (seq.length : Int) ∧
          Int.ceil ((seq.length : ℚ) / (size : ℚ)) < 0 ∧
          Chunk impl seq size
            = .error (.makesliceLen (Int.ceil ((seq.length : ℚ) / (size : ℚ))))) ∨
        ((seq.length : Int) < -size ∧
          Int.ceil ((seq.length : ℚ) / (size : ℚ)) = 0 ∧
          Chunk impl seq size = .error (.indexOutOfRange 0 0)) := by
    intro hseq
    rw [← ceilDiv_eq_ceil_of_neg seq.length size hsize]
    obtain ⟨d, hd⟩ : ∃ d : Nat, size = -(d : Int) := ⟨size.natAbs, by omega⟩
    subst hd
    have hpos : 0 < d := by omega
    rw [fdiv_neg_neg seq.length d hpos]
    rcases Nat.lt_or_ge seq.length d with hlt | hge
    · right
      have hq : seq.length / d = 0 := Nat.div_eq_of_lt hlt
      refine ⟨by omega, by simp [hq], ?_⟩
      cases seq with
      | nil => exact absurd rfl hseq
      | cons v rest =>
        have hmax : ¬ ((impl.maxLen : Int) < 0) := by omega
        simp only [Chunk, ceilQuot, if_neg hne, Impl.toInt, fdiv_neg_neg _ d hpos, hq,
          makeGroups]
        simp [chunkLoop, hmax]
    · left
      have hq : 0 < seq.length / d := Nat.div_pos hge hpos
      have hneg : -((seq.length / d : Nat) : Int) < 0 := by omega
      refine ⟨by omega, hneg, ?_⟩
      simp only [Chunk, ceilQuot, if_neg hne, Impl.toInt, fdiv_neg_neg _ d hpos,
        makeGroups, if_pos (Or.inl hneg : _ ∨ _)]
  refine ⟨hmain, fun hseq r hr => ?_, ?_⟩
  · rcases hmain hseq with ⟨-, -, h⟩ | ⟨-, -, h⟩ <;> rw [h] at hr <;> cases hr
  · have hmax : ¬ ((impl.maxLen : Int) < 0) := by omega
    simp [Chunk, ceilQuot, hne, Impl.toInt, makeGroups, chunkLoop, hmax]

/-- Witness of `Chunk_neg_size_panics`: three elements with `size == -2`, where the
group count is `ceil(-1.5) = -1`. -/
theorem Chunk_neg_size_panics_witness :
    (-2 : Int) < 0 ∧
      (([1, 2, 3] : List Nat) ≠ [] →
        (-(-2 : Int) ≤ (([1, 2, 3] : List Nat).length : Int) ∧
            Int.ceil ((([1, 2, 3] : List Nat).length : ℚ) / ((-2 : Int) : ℚ)) < 0 ∧
            Chunk amd64 [1, 2, 3] (-2)
              = .error (.makesliceLen
                  (Int.ceil ((([1, 2, 3] : List Nat).length : ℚ) / ((-2 : Int) : ℚ))))) ∨
          ((([1, 2, 3] : List Nat).length : Int) < -(-2 : Int) ∧
            Int.ceil ((([1, 2, 3] : List Nat).length : ℚ) / ((-2 : Int) : ℚ)) = 0 ∧
            Chunk amd64 [1, 2, 3] (-2) = .error (.indexOutOfRange 0 0))) ∧
      (([1, 2, 3] : List Nat) ≠ [] → ∀ r, Chunk amd64 [1, 2, 3] (-2) ≠ .ok r) ∧
      Chunk amd64 ([] : List Nat) (-2) = .ok ([], none) :=
  ⟨by decide, Chunk_neg_size_panics amd64 [1, 2, 3] (-2) (by decide)⟩

/-! ## Except and Intersect are complementary -/

theorem length_filter_add_length_filter_not {T : Type} (p : T → Bool) (l : List T) :
    (l.filter (fun v => !p v)).length + (l.filter p).length = l.length := by
  induction l with
  | nil => rfl
  | cons v rest ih =>
    cases h : p v <;> simp [List.filter_cons, h] <;> omega

/-- C23: `Except(a, b)` and `Intersect(b, a)` are complementary sub-sequences of `a`
that keep its order: together they are the partition of `a` by being `==` to an
element of `b` (by membership in `b` when every element of `a` is `==` to itself),
every occurrence of an element of `a` is in exactly one of the two, so
`len(Except(a, b)) + len(Intersect(b, a)) == len(a)`, and no value occurs in both. -/
theorem Except_Intersect_complementary {T : Type} [DecidableEq T] [GoComparable T]
    (a b : List T) :
    (Intersect b a, Except a b)
        = a.partition (fun v => b.any (fun w => GoComparable.eq w v)) ∧
      ((∀ x ∈ a, GoComparable.eq x x = true) →
        (Intersect b a, Except a b) = a.partition (fun v => decide (v ∈ b))) ∧
      List.Sublist (Except a b) a ∧
      List.Sublist (Intersect b a) a ∧
      (Except a b).length + (Intersect b a).length = a.length ∧
      (∀ x, (Except a b).count x + (Intersect b a).count x = a.count x) ∧
      (∀ x ∈ a, (x ∈ Except a b ∧ x ∉ Intersect b a) ∨ (x ∉ Except a b ∧ x ∈ Intersect b a)) ∧
      (∀ x, ¬ (x ∈ Except a b ∧ x ∈ Intersect b a)) := by
  have hE := Except_eq a b
  have hI := Intersect_eq b a
  refine ⟨?_, fun h => ?_, ?_, ?_, ?_, ?_, ?_, ?_⟩
  · rw [hE, hI, List.partition_eq_filter_filter]
    rfl
  · rw [hE, hI, filter_any_eq_of_self_eq a b h, filter_not_any_eq_of_self_eq a b h,
      List.partition_eq_filter_filter]
    rfl
  · rw [hE]; exact List.filter_sublist a
  · rw [hI]; exact List.filter_sublist a
  · rw [hE, hI]
    exact length_filter_add_length_filter_not (fun v => b.any (fun w => GoComparable.eq w v)) a
  · intro x
    rw [hE, hI]
    cases hx : b.any (fun w => GoComparable.eq w x) with
    | true =>
      have e1 : (a.filter (fun v => !b.any (fun w => GoComparable.eq w v))).count x = 0 :=
        List.count_eq_zero.mpr (by simp [hx])
      have e2 : (a.filter (fun v => b.any (fun w => GoComparable.eq w v))).count x
          = a.count x := List.count_filter (by simp [hx])
      omega
    | false =>
      have e1 : (a.filter (fun v => !b.any (fun w => GoComparable.eq w v))).count x
          = a.count x := List.count_filter (by simp [hx])
      have e2 : (a.filter (fun v => b.any (fun w => GoComparable.eq w v))).count x = 0 :=
        List.count_eq_zero.mpr (by simp [hx])
      omega
  · intro x hxa
    rw [hE, hI]
    cases hx : b.any (fun w => GoComparable.eq w x) with
    | true => right; simp [hx, hxa]
    | false => left; simp [hx, hxa]
  · intro x
    rw [hE, hI]
    simp only [List.mem_filter]
    rintro ⟨⟨-, h1⟩, ⟨-, h2⟩⟩
    simp [h2] at h1

/-! ## Evaluation on concrete inputs: the cases of the test suite and a few more -/

theorem test_Chunk_three_groups_of_two :
    Chunk amd64 [1, 1, 2, 2, 3, 3] 2 = .ok ([[1, 1], [2, 2], [3, 3]], none) := by decide

theorem test_Chunk_nineteen_by_six :
    (Chunk amd64 (List.range 19) 6).map (fun r => (r.1.map List.length, r.2))
      = .ok ([6, 6, 6, 1], none) := by decide

theorem test_First_divisible_by_three :
    First [4, 5, 6, 7, 8] (fun n => n % 3 == 0) = (6, none) := by decide

theorem test_First_no_match :
    First [4, 5, 1, 7, 8] (fun n => n % 3 == 0)
      = (4, some "no element in the slice satisfies the condition") := by decide

theorem test_Single_one_match :
    Single ["abc", "def", "ghi", "xyz"] (fun s => decide ('x' ∈ s.data)) = ("xyz", none) := by
  decide

theorem test_Single_two_matches :
    Single ["abc", "vwx", "ghi", "xyz"] (fun s => decide ('x' ∈ s.data))
      = ("", some "more than one element satisfy the condition") := by decide

theorem test_Distinct_six_values :
    (Distinct List.reverse [1, 2, 3, 3, 4, 4, 4, 5, 6, 6]).length = 6 := by decide

theorem test_Count_three :
    Count ["hello", "world", "what", "is", "up", "with", "you"]
      (fun s => decide ('o' ∈ s.data)) = 3 := by decide

theorem test_Aggregate_longest_string :
    Aggregate ["apple", "pineapple", "orange", "lemon", "banana", "pear"] "pear"
      (fun s s2 => if s2.length > s.length then s2 else s) = "pineapple" := by decide

theorem test_Aggregate_initial_value :
    Aggregate ["apple", "pineapple", "orange", "lemon", "banana", "pear"] "passion-fruit"
      (fun s s2 => if s2.length > s.length then s2 else s) = "passion-fruit" := by decide

theorem test_Except_cases :
    Except [1, 2, 3] [1, 2, 3] = [] ∧ Except [1, 2, 3] [] = [1, 2, 3] ∧
      Except [1, 2, 3] [2, 3] = [1] := by decide

theorem test_Intersect_cases :
    Intersect [1, 2, 3] [3, 4, 5] = [3] ∧ Intersect [1, 2, 3] [4, 5, 6] = [] := by decide

theorem test_Reverse_five :
    Reverse [1, 2, 3, 4, 5] = .ok [5, 4, 3, 2, 1] := by decide

theorem test_Select_names :
    Select [("one", 1), ("two", 2), ("three", 3)] Prod.fst = ["one", "two", "three"] := by
  decide

theorem test_SelectMany_with_index :
    SelectMany ["a", "b", "c"] (fun s i => List.replicate i.toNat s) = ["b", "c", "c"] := by
  decide

theorem test_ToMap_three_entries :
    ToMap [("one", 1), ("two", 2), ("three", 3)] Prod.snd Prod.fst
      = [(1, "one"), (2, "two"), (3, "three")] := by decide

theorem test_ToMap_repeated_key :
    ToMap [("one", 1), ("two", 2), ("uno", 1)] Prod.snd Prod.fst
      = [(1, "uno"), (2, "two")] := by decide

theorem test_ToSlice_three_entries :
    ToSlice id [(1, "one"), (2, "two"), (3, "three")] (fun (i : Nat) (n : String) => (n, i))
      = [("one", 1), ("two", 2), ("three", 3)] := by decide

theorem test_Zip_five_pairs :
    Zip [1, 2, 3, 4, 5] ["one:", "two:", "three:", "four:", "five:"] (fun i s => (s, i))
      = .ok [("one:", 1), ("two:", 2), ("three:", 3), ("four:", 4), ("five:", 5)] := by decide

theorem test_Zip_truncates_to_shorter :
    Zip [1, 2] ["one"] (fun i s => (s, i)) = .ok [("one", 1)] := by decide

theorem test_Repeat_one_five_times : Repeat 1 5 = [1, 1, 1, 1, 1] := by
  simp [Repeat, repeatLoop]

theorem test_Repeat_negative_count : Repeat 1 (-3) = [] := by
  simp [Repeat, repeatLoop]

theorem test_Chunk_negative_size_makeslice :
    Chunk amd64 [1, 2, 3] (-2) = .error (.makesliceLen (-1)) := by decide

theorem test_Chunk_negative_size_index :
    Chunk amd64 [1, 2, 3] (-5) = .error (.indexOutOfRange 0 0) := by decide

theorem test_Chunk_negative_size_exact_multiple :
    Chunk amd64 [1, 2, 3, 4] (-2) = .error (.makesliceLen (-2)) := by decide

theorem test_Except_Intersect_split :
    Except [1, 2, 1, 3, 2, 4] [2, 4, 5] = [1, 1, 3] ∧
      Intersect [2, 4, 5] [1, 2, 1, 3, 2, 4] = [2, 2, 4] := by decide

theorem test_Chunk_size_zero_arm64 :
    Chunk arm64 [1] 0 = .error (.makesliceLen 9223372036854775807) ∧
      Chunk arm64 ([] : List Nat) 0 = .ok ([], some "size cannot be zero") := by decide

theorem test_Except_Intersect_with_nan :
    Except [F64.nan, F64.num 1, F64.num 2] [F64.nan, F64.num 1] = [F64.nan, F64.num 2] ∧
      Intersect [F64.nan, F64.num 1] [F64.nan, F64.num 1, F64.num 2] = [F64.num 1] := by
  decide

end Slinq
